import Mathlib

/-!
Verification development for `repoze/bfg/traversal.py`.

The Python source is shallowly embedded as follows.

* Python 2 byte strings (`str`) are `List Nat` of byte values (each `< 256`).
* Python 2 unicode strings are `List Nat` of unicode code points
  (each `< 0x110000`); `chrs s` converts a Lean string literal.
* Fallible Python code returns `Except PyErr _`; `PyErr` covers the
  `TypeError`, `IndexError` and `KeyError` raises in the source.
* Graph nodes are identified by natural numbers; a `Graph` supplies the
  `__name__`, `__parent__` and (optional) `__getitem__` capabilities of the
  application-supplied objects.  A node whose `children` is `none` has no
  `__getitem__` attribute; `some cs` is a mapping with association list `cs`.
* Functions whose termination in Python depends on graph acyclicity
  (`lineage`-based walks) take explicit fuel and return `Option _`,
  with `none` modelling nontermination/exhaustion.
* The module-scope caches (`_segment_cache`, `lru_cache`) only memoize pure
  computations, so they are semantically transparent and are not modelled.
-/

/-- Code points of a Lean string literal; used both for ASCII byte strings
and for decoded unicode text. -/
def chrs (s : String) : List Nat := s.data.map Char.toNat

/-- A Python 2 byte string (`str`): a list of byte values. -/
abbrev ByteStr := List Nat

/-- A Python 2 unicode string: a list of unicode code points. -/
abbrev UStr := List Nat

/-- The exception classes raised by the embedded code. -/
inductive PyErr where
  | typeError
  | indexError
  | keyError
deriving DecidableEq, Repr

/-- Python `s.split(sep)` for a one-character separator: splits on every
occurrence, keeping empty pieces (`''.split('/') == ['']`). -/
def pySplit (sep : Nat) : List Nat → List (List Nat)
  | [] => [[]]
  | b :: t =>
    if b = sep then [] :: pySplit sep t
    else
      match pySplit sep t with
      | s :: rest => (b :: s) :: rest
      | [] => [[b]]

/-- Python `s.lstrip('/')`: drop leading `/` bytes. -/
def lstripSlash : ByteStr → ByteStr
  | [] => []
  | b :: t => if b = 47 then lstripSlash t else b :: t

/-- Python `s.rstrip('/')`: drop trailing `/` bytes. -/
def rstripSlash (l : ByteStr) : ByteStr :=
  (lstripSlash l.reverse).reverse

/-- Value of a hexadecimal digit byte (both cases), as used by
`urllib.unquote`'s `_hextochr` table. -/
def hexVal? (b : Nat) : Option Nat :=
  if 48 ≤ b ∧ b ≤ 57 then some (b - 48)
  else if 65 ≤ b ∧ b ≤ 70 then some (b - 55)
  else if 97 ≤ b ∧ b ≤ 102 then some (b - 87)
  else none

/-- Python 2 `urllib.unquote` on a byte string: each `%` (byte 37) followed by
two hex digits becomes the corresponding byte; any other `%` is kept
literally; all other bytes pass through. -/
def urlUnquote : ByteStr → ByteStr
  | [] => []
  | b :: h1 :: h2 :: t =>
    if b = 37 then
      match hexVal? h1, hexVal? h2 with
      | some a, some x => (16 * a + x) :: urlUnquote t
      | _, _ => 37 :: urlUnquote (h1 :: h2 :: t)
    else b :: urlUnquote (h1 :: h2 :: t)
  | b :: rest =>
    if b = 37 then 37 :: urlUnquote rest else b :: urlUnquote rest

/-- UTF-8 encoding of one code point (Python 2 `unicode.encode('utf-8')`,
which also encodes surrogate code points). -/
def utf8EncodeCp (c : Nat) : List Nat :=
  if c < 0x80 then [c]
  else if c < 0x800 then [0xC0 + c / 64, 0x80 + c % 64]
  else if c < 0x10000 then [0xE0 + c / 4096, 0x80 + (c / 64) % 64, 0x80 + c % 64]
  else [0xF0 + c / 262144, 0x80 + (c / 4096) % 64, 0x80 + (c / 64) % 64, 0x80 + c % 64]

/-- UTF-8 encoding of a unicode string. -/
def utf8Encode : UStr → ByteStr
  | [] => []
  | c :: cs => utf8EncodeCp c ++ utf8Encode cs

/-- A UTF-8 continuation byte. -/
def isCont (b : Nat) : Prop := 128 ≤ b ∧ b < 192

instance (b : Nat) : Decidable (isCont b) := by
  unfold isCont; infer_instance

/-- Decode one UTF-8-encoded code point: the lead byte `b`, the following
bytes `t`; returns the code point and the undecoded remainder.  Rejects stray
continuation bytes, overlong forms and code points above `0x10FFFF`; like
Python 2's UTF-8 codec it accepts encoded surrogate code points. -/
def utf8DecodeOne (b : Nat) (t : ByteStr) : Option (Nat × ByteStr) :=
  if b < 0x80 then some (b, t)
  else if b < 0xC2 then none
  else if b < 0xE0 then
    match t with
    | b1 :: t1 =>
      if isCont b1 then some ((b - 0xC0) * 64 + (b1 - 0x80), t1) else none
    | [] => none
  else if b < 0xF0 then
    match t with
    | b1 :: b2 :: t2 =>
      let v := (b - 0xE0) * 4096 + (b1 - 0x80) * 64 + (b2 - 0x80)
      if isCont b1 ∧ isCont b2 ∧ 0x800 ≤ v then some (v, t2) else none
    | _ => none
  else if b < 0xF5 then
    match t with
    | b1 :: b2 :: b3 :: t3 =>
      let v := (b - 0xF0) * 262144 + (b1 - 0x80) * 4096 + (b2 - 0x80) * 64 + (b3 - 0x80)
      if isCont b1 ∧ isCont b2 ∧ isCont b3 ∧ 0x10000 ≤ v ∧ v < 0x110000 then some (v, t3)
      else none
    | _ => none
  else none

/-- Decode loop with fuel (one unit per decoded code point; any fuel at least
the byte length is enough, see `utf8DecodeLoop_encode`). -/
def utf8DecodeLoop : Nat → ByteStr → Option UStr
  | _, [] => some []
  | 0, _ :: _ => none
  | fuel + 1, b :: t =>
    match utf8DecodeOne b t with
    | none => none
    | some (v, rest) => (utf8DecodeLoop fuel rest).map (v :: ·)

/-- UTF-8 decoding of a byte string (Python 2 `str.decode('utf-8')`): `none`
where Python raises `UnicodeDecodeError`. -/
def utf8Decode (bs : ByteStr) : Option UStr := utf8DecodeLoop bs.length bs

instance {ε α : Type} [DecidableEq ε] [DecidableEq α] : DecidableEq (Except ε α) :=
  fun a b =>
    match a, b with
    | .ok x, .ok y =>
      if h : x = y then isTrue (by rw [h]) else isFalse (by intro hh; cases hh; exact h rfl)
    | .error x, .error y =>
      if h : x = y then isTrue (by rw [h]) else isFalse (by intro hh; cases hh; exact h rfl)
    | .ok _, .error _ => isFalse (by intro hh; cases hh)
    | .error _, .ok _ => isFalse (by intro hh; cases hh)

/-- Bytes left untouched by URL quoting (alphanumerics and `_.-`). -/
def safeByte (b : Nat) : Bool :=
  (48 ≤ b && b ≤ 57) || (65 ≤ b && b ≤ 90) || (97 ≤ b && b ≤ 122) ||
    b == 45 || b == 46 || b == 95

/-- Uppercase hexadecimal digit byte for a value below 16. -/
def hexDigit (n : Nat) : Nat := if n < 10 then 48 + n else 55 + n

/-- URL quoting of one byte. -/
def quoteByte (b : Nat) : List Nat :=
  if safeByte b then [b] else [37, hexDigit (b / 16), hexDigit (b % 16)]

/-- Modelled from the spec: `url_quote` lives in `repoze.bfg.encode`, which is
not under `src/`; per the spec's Path Segment Codec it percent-encodes every
reserved character of a byte string, leaving unreserved bytes as themselves. -/
def url_quote : ByteStr → ByteStr
  | [] => []
  | b :: bs => quoteByte b ++ url_quote bs

/-- `quote_path_segment` (unicode branch): encode as UTF-8, then URL-quote.
The module-scope `_segment_cache` only memoizes this pure computation and is
not modelled. -/
def quote_path_segment (s : UStr) : ByteStr := url_quote (utf8Encode s)

/-- The normalization loop of `traversal_path`: URL-unquote each raw segment,
drop empty and `.` segments, let `..` delete the last accumulated segment
(`del clean[-1]`, raising `IndexError` when the accumulator is empty), and
UTF-8-decode every kept segment (raising `TypeError` on failure). -/
def normSegs : List ByteStr → List UStr → Except PyErr (List UStr)
  | [], acc => .ok acc
  | seg :: rest, acc =>
    let s := urlUnquote seg
    if s = [] ∨ s = chrs "." then normSegs rest acc
    else if s = chrs ".." then
      if acc = [] then .error .indexError
      else normSegs rest acc.dropLast
    else
      match utf8Decode s with
      | none => .error .typeError
      | some u => normSegs rest (acc ++ [u])

/-- `traversal_path`: strip trailing then leading slashes, split on `/`, and
normalize the segments.  The `lru_cache` decoration memoizes this pure
computation and is not modelled. -/
def traversal_path (p : ByteStr) : Except PyErr (List UStr) :=
  normSegs (pySplit 47 (lstripSlash (rstripSlash p))) []

/-- Python `'/'.join(parts)` on byte strings. -/
def joinSlash : List ByteStr → ByteStr
  | [] => []
  | [x] => x
  | x :: y :: ys => x ++ 47 :: joinSlash (y :: ys)

/-- `_join_path_tuple`: `tuple and '/'.join([quote_path_segment(x) for x in
tuple]) or '/'` -- the empty tuple and a falsy (empty) join both give `/`. -/
def _join_path_tuple (t : List UStr) : ByteStr :=
  if t = [] then chrs "/"
  else if joinSlash (t.map quote_path_segment) = [] then chrs "/"
  else joinSlash (t.map quote_path_segment)

/-- The application-supplied object graph.  Nodes are identified by natural
numbers.  `name n` is the node's `__name__` (`none` for Python `None`),
`parent n` its `__parent__` (`none` for Python `None`), and `children n` its
keyed child-lookup capability: `none` when the object has no `__getitem__`
attribute, `some cs` when it is a mapping with entries `cs` (whose
`__getitem__` raises `KeyError` exactly on keys absent from `cs`). -/
structure Graph where
  name : Nat → Option UStr
  parent : Nat → Option Nat
  children : Nat → Option (List (UStr × Nat))

/-- First-match association-list lookup: Python mapping `__getitem__`
returning `none` for a `KeyError`. -/
def assocLookup (s : UStr) : List (UStr × Nat) → Option Nat
  | [] => none
  | (k, v) :: rest => if k = s then some v else assocLookup s rest

/-- Combined child lookup: `none` when `ob` has no `__getitem__` attribute or
when the key is absent. -/
def childLookup (g : Graph) (ob : Nat) (s : UStr) : Option Nat :=
  match g.children ob with
  | none => none
  | some cs => assocLookup s cs

/-- Modelled from the spec: `lineage` lives in `repoze.bfg.location`, which is
not under `src/`; per the spec's Lineage Walker it yields the node, then its
parent, and so on, stopping inclusively at the node whose parent is null, and
diverges on a parent cycle.  `fuel` bounds the walk; `none` models
nontermination. -/
def lineage? (g : Graph) : Nat → Nat → Option (List Nat)
  | 0, _ => none
  | fuel + 1, n =>
    match g.parent n with
    | none => some [n]
    | some p => (lineage? g fuel p).map (fun l => n :: l)

/-- `find_root`: scan the lineage and return the first node whose
`__parent__` is `None`. -/
def find_root? (g : Graph) : Nat → Nat → Option Nat
  | 0, _ => none
  | fuel + 1, n =>
    match g.parent n with
    | none => some n
    | some p => find_root? g fuel p

/-- The dictionary returned by `ModelGraphTraverser.__call__`. -/
structure TravResult where
  context : Nat
  view_name : UStr
  subpath : List UStr
  traversed : List UStr
  virtual_root : Nat
  virtual_root_path : List UStr
  root : Nat
deriving DecidableEq, Repr

/-- A path argument that is either a Python string or a sequence of decoded
segments (`hasattr(path, '__iter__')`). -/
inductive PathArg where
  | str (s : ByteStr)
  | seq (l : List UStr)

/-- The `bfg.routes.matchdict` entry of an environment: its optional
`traverse` and `subpath` keys, each either a string or a sequence. -/
structure Matchdict where
  traverse : Option PathArg
  subpath : Option PathArg

/-- The WSGI-environment keys read by `ModelGraphTraverser.__call__`:
`bfg.routes.matchdict`, `PATH_INFO` and the virtual-root key `VH_ROOT_KEY`
(`none` models an absent key). -/
structure Environ where
  matchdict : Option Matchdict
  path_info : Option ByteStr
  vroot : Option ByteStr

/-- Path selection from a matchdict: `matchdict.get('traverse', '/')`, and a
`*traverse` sequence is joined back with `/` after quoting (`or '/'` when the
join is empty). -/
def mdPath (md : Matchdict) : ByteStr :=
  match md.traverse.getD (PathArg.str (chrs "/")) with
  | PathArg.str s => s
  | PathArg.seq l =>
    let j := joinSlash (l.map quote_path_segment)
    if j = [] then chrs "/" else j

/-- Subpath selection from a matchdict: `matchdict.get('subpath', ())`, run
through `traversal_path` when it is not a sequence. -/
def mdSubpath (md : Matchdict) : Except PyErr (List UStr) :=
  match md.subpath.getD (PathArg.seq []) with
  | PathArg.seq l => .ok l
  | PathArg.str s => traversal_path s

/-- Step 1 of `ModelGraphTraverser.__call__`: determine `path` and `subpath`
from the matchdict when a route matched, else from `PATH_INFO`
(`environ['PATH_INFO'] or '/'`, defaulting to `/` on `KeyError`). -/
def envPath (env : Environ) : Except PyErr (ByteStr × List UStr) :=
  match env.matchdict with
  | some md => (mdSubpath md).map (fun sp => (mdPath md, sp))
  | none =>
    .ok (match env.path_info with
          | none => chrs "/"
          | some p => if p = [] then chrs "/" else p,
         [])

/-- The segment walk of `ModelGraphTraverser.__call__`, with the loop state
(`i`, `ob`, `vroot`) explicit.  A `@@` segment stops with the rest as
`view_name`/`subpath`; a node without `__getitem__` or a failed child lookup
stops the same way with the segment as `view_name`; otherwise the child is
entered (becoming the virtual root when `i == vroot_idx`). -/
def mgtWalk (g : Graph) (root : Nat) (vt : List UStr) (vidx : Int)
    (sub0 : List UStr) (vpt : List UStr) :
    List UStr → Nat → Nat → Nat → TravResult
  | [], _i, ob, vr => ⟨ob, [], sub0, vpt, vr, vt, root⟩
  | seg :: rest, i, ob, vr =>
    if seg.take 2 = chrs "@@" then
      ⟨ob, seg.drop 2, vpt.drop (i + 1), vpt.take (vidx + (i : Int) + 1).toNat, vr, vt, root⟩
    else
      match g.children ob with
      | none => ⟨ob, seg, vpt.drop (i + 1), vpt.take (vidx + (i : Int) + 1).toNat, vr, vt, root⟩
      | some cs =>
        match assocLookup seg cs with
        | none => ⟨ob, seg, vpt.drop (i + 1), vpt.take (vidx + (i : Int) + 1).toNat, vr, vt, root⟩
        | some next =>
          mgtWalk g root vt vidx sub0 vpt rest (i + 1) next
            (if (i : Int) = vidx then next else vr)

/-- `ModelGraphTraverser.__call__` on an environment: path/subpath selection,
virtual-root adjustment (`vpath = vroot_path + path`,
`vroot_idx = len(vroot_tuple) - 1`), the `/`-or-empty short-circuit, and the
segment walk.  Exceptions escaping `traversal_path` propagate. -/
def mgtCall (g : Graph) (root : Nat) (env : Environ) : Except PyErr TravResult := do
  let ps ← envPath env
  let path := ps.1
  let subpath := ps.2
  let vdat ← (match env.vroot with
    | some vp => (traversal_path vp).map
        (fun vt => (vt, vp ++ path, (vt.length : Int) - 1))
    | none => .ok (([] : List UStr), path, (-1 : Int)))
  let vroot_tuple := vdat.1
  let vpath := vdat.2.1
  let vroot_idx := vdat.2.2
  if vpath = chrs "/" ∨ vpath = [] then
    return ⟨root, [], subpath, [], root, vroot_tuple, root⟩
  else do
    let vpath_tuple ← traversal_path vpath
    return mgtWalk g root vroot_tuple vroot_idx subpath vpath_tuple vpath_tuple 0 root root

/-- The path string `traverse` derives from its `path` argument: a nonempty
tuple is joined via `_join_path_tuple`, an empty tuple becomes `''`. -/
def pathArgStr (p : PathArg) : ByteStr :=
  match p with
  | PathArg.str s => s
  | PathArg.seq l => if l = [] then [] else _join_path_tuple l

/-- `traverse(model, path)`: convert a tuple path to a string, start from
`find_root(model)` when the string begins with `/`, and run the traverser on
a request whose environment carries the path.  `Request.blank(path)` and the
registry are modelled from the spec (`repoze.bfg.request` and the service
locator are not under `src/`): the request's environment maps `PATH_INFO` to
`path` with no other recognized keys, and no `ITraverser` adapter is
registered, so the default `ModelGraphTraverser` runs. -/
def traverse? (g : Graph) (fuel : Nat) (n : Nat) (parg : PathArg) :
    Option (Except PyErr TravResult) :=
  let path := pathArgStr parg
  let start? := if path.head? = some 47 then find_root? g fuel n else some n
  start?.map (fun start => mgtCall g start ⟨none, some path, none⟩)

/-- `find_model(model, path)`: run `traverse` and raise `KeyError` when the
resulting `view_name` is truthy (nonempty), else return the context. -/
def find_model? (g : Graph) (fuel : Nat) (n : Nat) (parg : PathArg) :
    Option (Except PyErr Nat) :=
  (traverse? g fuel n parg).map (fun r =>
    match r with
    | .error e => .error e
    | .ok d => if d.view_name = [] then .ok d.context else .error .keyError)

/-- `_model_path_list`/`model_path_tuple`: the lineage's names
(`loc.__name__ or ''`), reversed, extended with `elements`. -/
def model_path_tuple? (g : Graph) (fuel : Nat) (n : Nat) (elements : List UStr) :
    Option (List UStr) :=
  (lineage? g fuel n).map
    (fun chain => (chain.map (fun m => (g.name m).getD [])).reverse ++ elements)

/-- `model_path`: `_join_path_tuple(model_path_tuple(model, *elements))`. -/
def model_path? (g : Graph) (fuel : Nat) (n : Nat) (elements : List UStr) :
    Option ByteStr :=
  (model_path_tuple? g fuel n elements).map _join_path_tuple

/-- Pure downward lookup chain: the node reached from `ob` by looking up
each segment in turn, `none` as soon as a lookup fails. -/
def walkLookup (g : Graph) : Nat → List UStr → Option Nat
  | ob, [] => some ob
  | ob, s :: rest =>
    match childLookup g ob s with
    | some c => walkLookup g c rest
    | none => none

/-- A unicode segment that traversal treats as an ordinary name: nonempty,
not `.` or `..`, not starting with the `@@` view marker, and made of
representable code points (any Python 2 unicode string satisfies the bound). -/
def normalSeg (s : UStr) : Prop :=
  s ≠ [] ∧ s ≠ chrs "." ∧ s ≠ chrs ".." ∧ s.take 2 ≠ chrs "@@" ∧ ∀ c ∈ s, c < 0x110000

instance (s : UStr) : Decidable (normalSeg s) := by
  unfold normalSeg
  infer_instance

/-- Consistency of a lineage chain (leaf first) with child lookup: every node
in the chain carries a normal `__name__` under which its parent's
`__getitem__` returns it. -/
def ChainOK (g : Graph) : List Nat → Prop
  | [] => True
  | [_] => True
  | c :: p :: rest =>
    (∃ nm, g.name c = some nm ∧ normalSeg nm ∧ childLookup g p nm = some c) ∧
      ChainOK g (p :: rest)

/-- The names along a lineage chain (leaf first) in root-to-leaf order,
excluding the root: the segments `model_path` emits after the leading
empty string. -/
def revNames (g : Graph) (chain : List Nat) : List UStr :=
  (chain.dropLast.map (fun c => (g.name c).getD [])).reverse

/-- The three-level example graph root(0) -> a(1) -> b(2); `b` is an empty
container. -/
def gab : Graph :=
  { name := fun n => match n with
      | 1 => some (chrs "a") | 2 => some (chrs "b") | _ => none,
    parent := fun n => match n with
      | 1 => some 0 | 2 => some 1 | _ => none,
    children := fun n => match n with
      | 0 => some [(chrs "a", 1)] | 1 => some [(chrs "b", 2)] | 2 => some [] | _ => none }

/-- A location-aware graph whose only child is named `.`: root(0) -> dot(1). -/
def gdot : Graph :=
  { name := fun n => match n with
      | 1 => some (chrs ".") | _ => none,
    parent := fun n => match n with
      | 1 => some 0 | _ => none,
    children := fun n => match n with
      | 0 => some [(chrs ".", 1)] | _ => none }

/-- Predicate versions of the normalization tests, on unquoted byte
segments: a `..` segment. -/
def isDots (s : ByteStr) : Bool := s == chrs ".."

/-- A segment that the normalization loop appends (not dropped, not `..`). -/
def isKept (s : ByteStr) : Bool := !(s == []) && !(s == chrs ".") && !(s == chrs "..")

/-- A segment the normalization loop can process without a decode error:
either dropped, a `..`, or valid UTF-8. -/
def validSeg (s : ByteStr) : Bool :=
  (s == []) || (s == chrs ".") || (s == chrs "..") || (utf8Decode s).isSome

/-- The raw segment list `traversal_path` iterates over. -/
def rawSegs (p : ByteStr) : List ByteStr :=
  pySplit 47 (lstripSlash (rstripSlash p))

/- ### Helper lemmas: UTF-8 codec -/

theorem utf8DecodeLoop_encode (cs : UStr) : ∀ fuel, (∀ c ∈ cs, c < 0x110000) →
    (utf8Encode cs).length ≤ fuel → utf8DecodeLoop fuel (utf8Encode cs) = some cs := by
  induction cs with
  | nil => intro fuel _ _; rw [utf8Encode]; cases fuel <;> rfl
  | cons c cs ih =>
    intro fuel hval hlen
    have hc : c < 0x110000 := hval c (by simp)
    have hcs : ∀ x ∈ cs, x < 0x110000 := fun x hx => hval x (by simp [hx])
    rw [utf8Encode] at hlen ⊢
    by_cases h1 : c < 0x80
    · have he : utf8EncodeCp c = [c] := by unfold utf8EncodeCp; rw [if_pos h1]
      rw [he] at hlen ⊢
      simp only [List.cons_append, List.nil_append, List.length_cons] at hlen ⊢
      cases fuel with
      | zero => omega
      | succ f =>
        rw [utf8DecodeLoop]
        unfold utf8DecodeOne
        rw [if_pos h1]
        simp only []
        rw [ih f hcs (by omega)]
        rfl
    · by_cases h2 : c < 0x800
      · have he : utf8EncodeCp c = [0xC0 + c / 64, 0x80 + c % 64] := by
          unfold utf8EncodeCp; rw [if_neg h1, if_pos h2]
        rw [he] at hlen ⊢
        simp only [List.cons_append, List.nil_append, List.length_cons] at hlen ⊢
        cases fuel with
        | zero => omega
        | succ f =>
          rw [utf8DecodeLoop]
          unfold utf8DecodeOne
          rw [if_neg (by omega), if_neg (by omega), if_pos (by omega)]
          simp only []
          rw [if_pos (show isCont (0x80 + c % 64) from ⟨by omega, by omega⟩)]
          simp only []
          have hv : (0xC0 + c / 64 - 0xC0) * 64 + (0x80 + c % 64 - 0x80) = c := by omega
          rw [hv, ih f hcs (by omega)]
          rfl
      · by_cases h3 : c < 0x10000
        · have he : utf8EncodeCp c = [0xE0 + c / 4096, 0x80 + c / 64 % 64, 0x80 + c % 64] := by
            unfold utf8EncodeCp; rw [if_neg h1, if_neg h2, if_pos h3]
          rw [he] at hlen ⊢
          simp only [List.cons_append, List.nil_append, List.length_cons] at hlen ⊢
          cases fuel with
          | zero => omega
          | succ f =>
            rw [utf8DecodeLoop]
            unfold utf8DecodeOne
            rw [if_neg (by omega), if_neg (by omega), if_neg (by omega), if_pos (by omega)]
            simp only []
            rw [if_pos (show isCont (0x80 + c / 64 % 64) ∧ isCont (0x80 + c % 64) ∧
              0x800 ≤ (0xE0 + c / 4096 - 0xE0) * 4096 + (0x80 + c / 64 % 64 - 0x80) * 64 +
                (0x80 + c % 64 - 0x80) from
              ⟨⟨by omega, by omega⟩, ⟨by omega, by omega⟩, by omega⟩)]
            simp only []
            have hv : (0xE0 + c / 4096 - 0xE0) * 4096 + (0x80 + c / 64 % 64 - 0x80) * 64 +
                (0x80 + c % 64 - 0x80) = c := by omega
            rw [hv, ih f hcs (by omega)]
            rfl
        · have he : utf8EncodeCp c = [0xF0 + c / 262144, 0x80 + c / 4096 % 64,
              0x80 + c / 64 % 64, 0x80 + c % 64] := by
            unfold utf8EncodeCp; rw [if_neg h1, if_neg h2, if_neg h3]
          rw [he] at hlen ⊢
          simp only [List.cons_append, List.nil_append, List.length_cons] at hlen ⊢
          cases fuel with
          | zero => omega
          | succ f =>
            rw [utf8DecodeLoop]
            unfold utf8DecodeOne
            rw [if_neg (by omega), if_neg (by omega), if_neg (by omega), if_neg (by omega),
              if_pos (by omega)]
            simp only []
            rw [if_pos (show isCont (0x80 + c / 4096 % 64) ∧ isCont (0x80 + c / 64 % 64) ∧
              isCont (0x80 + c % 64) ∧
              0x10000 ≤ (0xF0 + c / 262144 - 0xF0) * 262144 + (0x80 + c / 4096 % 64 - 0x80) * 4096 +
                (0x80 + c / 64 % 64 - 0x80) * 64 + (0x80 + c % 64 - 0x80) ∧
              (0xF0 + c / 262144 - 0xF0) * 262144 + (0x80 + c / 4096 % 64 - 0x80) * 4096 +
                (0x80 + c / 64 % 64 - 0x80) * 64 + (0x80 + c % 64 - 0x80) < 0x110000 from
              ⟨⟨by omega, by omega⟩, ⟨by omega, by omega⟩, ⟨by omega, by omega⟩,
                by omega, by omega⟩)]
            simp only []
            have hv : (0xF0 + c / 262144 - 0xF0) * 262144 + (0x80 + c / 4096 % 64 - 0x80) * 4096 +
                (0x80 + c / 64 % 64 - 0x80) * 64 + (0x80 + c % 64 - 0x80) = c := by omega
            rw [hv, ih f hcs (by omega)]
            rfl

theorem utf8Decode_utf8Encode (cs : UStr) (h : ∀ c ∈ cs, c < 0x110000) :
    utf8Decode (utf8Encode cs) = some cs := by
  unfold utf8Decode
  exact utf8DecodeLoop_encode cs _ h le_rfl

theorem utf8EncodeCp_ne_nil (c : Nat) : utf8EncodeCp c ≠ [] := by
  unfold utf8EncodeCp
  split <;> try simp
  split <;> try simp
  split <;> simp

theorem utf8Encode_ne_nil (cs : UStr) (h : cs ≠ []) : utf8Encode cs ≠ [] := by
  cases cs with
  | nil => exact absurd rfl h
  | cons c cs =>
    rw [utf8Encode]
    intro hh
    exact utf8EncodeCp_ne_nil c (List.append_eq_nil.mp hh).1

theorem utf8EncodeCp_lt_256 (c : Nat) (hc : c < 0x110000) :
    ∀ b ∈ utf8EncodeCp c, b < 256 := by
  unfold utf8EncodeCp
  intro b hb
  by_cases h1 : c < 0x80
  · rw [if_pos h1] at hb; simp at hb; omega
  · rw [if_neg h1] at hb
    by_cases h2 : c < 0x800
    · rw [if_pos h2] at hb; simp at hb; rcases hb with h | h <;> omega
    · rw [if_neg h2] at hb
      by_cases h3 : c < 0x10000
      · rw [if_pos h3] at hb; simp at hb; rcases hb with h | h | h <;> omega
      · rw [if_neg h3] at hb; simp at hb; rcases hb with h | h | h | h <;> omega

theorem utf8Encode_lt_256 (cs : UStr) (h : ∀ c ∈ cs, c < 0x110000) :
    ∀ b ∈ utf8Encode cs, b < 256 := by
  induction cs with
  | nil => intro b hb; cases hb
  | cons c cs ih =>
    intro b hb
    rw [utf8Encode] at hb
    rcases List.mem_append.mp hb with h1 | h1
    · exact utf8EncodeCp_lt_256 c (h c (by simp)) b h1
    · exact ih (fun x hx => h x (by simp [hx])) b h1

/- ### Helper lemmas: URL quoting -/

theorem hexVal?_hexDigit (x : Nat) (h : x < 16) : hexVal? (hexDigit x) = some x := by
  unfold hexVal? hexDigit
  split_ifs <;> (congr 1; omega)

theorem safeByte_facts (b : Nat) (h : safeByte b = true) : b ≠ 37 ∧ b ≠ 47 := by
  unfold safeByte at h
  simp only [Bool.or_eq_true, Bool.and_eq_true, decide_eq_true_eq, beq_iff_eq] at h
  omega

theorem hexDigit_facts (x : Nat) : hexDigit x ≠ 47 ∧ hexDigit x ≠ 37 := by
  unfold hexDigit
  split <;> omega

theorem urlUnquote_cons_ne (b : Nat) (hb : b ≠ 37) (rest : ByteStr) :
    urlUnquote (b :: rest) = b :: urlUnquote rest := by
  cases rest with
  | nil => simp [urlUnquote, hb]
  | cons h1 t1 =>
    cases t1 with
    | nil => simp [urlUnquote, hb]
    | cons h2 t2 => simp [urlUnquote, hb]

theorem urlUnquote_hex (b : Nat) (hb : b < 256) (rest : ByteStr) :
    urlUnquote (37 :: hexDigit (b / 16) :: hexDigit (b % 16) :: rest) =
      b :: urlUnquote rest := by
  rw [urlUnquote]
  rw [if_pos rfl, hexVal?_hexDigit _ (by omega), hexVal?_hexDigit _ (by omega)]
  show (16 * (b / 16) + b % 16) :: urlUnquote rest = b :: urlUnquote rest
  have : 16 * (b / 16) + b % 16 = b := by omega
  rw [this]

theorem urlUnquote_url_quote (bs : ByteStr) (h : ∀ b ∈ bs, b < 256) :
    urlUnquote (url_quote bs) = bs := by
  induction bs with
  | nil => rfl
  | cons b bs ih =>
    rw [url_quote]
    unfold quoteByte
    by_cases hs : safeByte b
    · rw [if_pos hs, List.cons_append, List.nil_append,
        urlUnquote_cons_ne b (safeByte_facts b hs).1, ih (fun x hx => h x (by simp [hx]))]
    · rw [if_neg hs]
      show urlUnquote (37 :: hexDigit (b / 16) :: hexDigit (b % 16) :: url_quote bs) = _
      rw [urlUnquote_hex b (h b (by simp)), ih (fun x hx => h x (by simp [hx]))]

theorem url_quote_ne_nil (bs : ByteStr) (h : bs ≠ []) : url_quote bs ≠ [] := by
  cases bs with
  | nil => exact absurd rfl h
  | cons b bs =>
    rw [url_quote]
    unfold quoteByte
    split <;> simp

theorem not_mem_47_url_quote (bs : ByteStr) : 47 ∉ url_quote bs := by
  induction bs with
  | nil => simp [url_quote]
  | cons b bs ih =>
    rw [url_quote]
    intro hmem
    rcases List.mem_append.mp hmem with hq | hq
    · unfold quoteByte at hq
      split at hq
      · next hs =>
        rcases List.mem_cons.mp hq with h1 | h1
        · exact (safeByte_facts b hs).2 h1.symm
        · exact List.not_mem_nil _ h1
      · rcases List.mem_cons.mp hq with h1 | hq1
        · omega
        · rcases List.mem_cons.mp hq1 with h1 | hq2
          · exact (hexDigit_facts (b / 16)).1 h1.symm
          · rcases List.mem_cons.mp hq2 with h1 | hq3
            · exact (hexDigit_facts (b % 16)).1 h1.symm
            · exact List.not_mem_nil _ hq3
    · exact ih hq

/- ### Helper lemmas: splitting, stripping and joining -/

theorem head?_ne_of_not_mem {l : List Nat} {a : Nat} (h : a ∉ l) : l.head? ≠ some a := by
  cases l with
  | nil => simp
  | cons b t =>
    intro hh
    injection hh with hba
    exact h (by rw [← hba]; exact List.mem_cons_self b t)

theorem lstripSlash_of_head (l : ByteStr) (h : l.head? ≠ some 47) : lstripSlash l = l := by
  cases l with
  | nil => rfl
  | cons b t =>
    rw [lstripSlash, if_neg (fun hb => h (by rw [hb]; rfl))]

theorem rstripSlash_of_revHead (l : ByteStr) (h : l.reverse.head? ≠ some 47) :
    rstripSlash l = l := by
  unfold rstripSlash
  rw [lstripSlash_of_head _ h, List.reverse_reverse]

theorem joinSlash_ne_nil (x : ByteStr) (rest : List ByteStr) (hx : x ≠ []) :
    joinSlash (x :: rest) ≠ [] := by
  cases rest with
  | nil => rw [joinSlash]; exact hx
  | cons y ys => rw [joinSlash]; simp

theorem joinSlash_head? (x : ByteStr) (rest : List ByteStr) (hx : x ≠ []) :
    (joinSlash (x :: rest)).head? = x.head? := by
  cases rest with
  | nil => rw [joinSlash]
  | cons y ys => rw [joinSlash]; exact List.head?_append_of_ne_nil _ hx

theorem joinSlash_revHead (parts : List ByteStr) (h1 : parts ≠ [])
    (h2 : ∀ p ∈ parts, p ≠ []) (h3 : ∀ p ∈ parts, 47 ∉ p) :
    (joinSlash parts).reverse.head? ≠ some 47 := by
  induction parts with
  | nil => exact absurd rfl h1
  | cons x rest ih =>
    cases rest with
    | nil =>
      rw [joinSlash]
      apply head?_ne_of_not_mem
      intro hm
      exact h3 x (List.mem_cons_self x []) (List.mem_reverse.mp hm)
    | cons y ys =>
      rw [joinSlash, List.reverse_append, List.reverse_cons]
      have hJ : joinSlash (y :: ys) ≠ [] := joinSlash_ne_nil y ys (h2 y (by simp))
      rw [List.head?_append_of_ne_nil _ (by simp)]
      rw [List.head?_append_of_ne_nil _ (by simpa using hJ)]
      exact ih (by simp) (fun p hp => h2 p (by simp [hp])) (fun p hp => h3 p (by simp [hp]))

theorem pySplit_no_sep (sep : Nat) (x : List Nat) (h : sep ∉ x) : pySplit sep x = [x] := by
  induction x with
  | nil => rfl
  | cons b t ih =>
    rw [pySplit, if_neg (fun hb => h (by rw [hb]; exact List.mem_cons_self sep t)),
      ih (fun hm => h (List.mem_cons_of_mem _ hm))]

theorem pySplit_append_sep (sep : Nat) (x r : List Nat) (h : sep ∉ x) :
    pySplit sep (x ++ sep :: r) = x :: pySplit sep r := by
  induction x with
  | nil =>
    rw [List.nil_append, pySplit, if_pos rfl]
  | cons b t ih =>
    rw [List.cons_append, pySplit,
      if_neg (fun hb => h (by rw [hb]; exact List.mem_cons_self sep t)),
      ih (fun hm => h (List.mem_cons_of_mem _ hm))]

theorem pySplit_joinSlash (parts : List ByteStr) (h1 : parts ≠ [])
    (h3 : ∀ p ∈ parts, 47 ∉ p) : pySplit 47 (joinSlash parts) = parts := by
  induction parts with
  | nil => exact absurd rfl h1
  | cons x rest ih =>
    cases rest with
    | nil => rw [joinSlash]; exact pySplit_no_sep 47 x (h3 x (by simp))
    | cons y ys =>
      rw [joinSlash, pySplit_append_sep 47 x _ (h3 x (by simp)),
        ih (by simp) (fun p hp => h3 p (by simp [hp]))]

/- ### Helper lemmas: normalization of quoted segments -/

theorem quoted_unquotes (s : UStr) (hval : ∀ c ∈ s, c < 0x110000) :
    urlUnquote (quote_path_segment s) = utf8Encode s :=
  urlUnquote_url_quote _ (utf8Encode_lt_256 s hval)

theorem encode_ne_dot (s : UStr) (hval : ∀ c ∈ s, c < 0x110000) (hdot : s ≠ chrs ".") :
    utf8Encode s ≠ chrs "." := by
  intro heq
  have hdec := utf8Decode_utf8Encode s hval
  rw [heq] at hdec
  have : utf8Decode (chrs ".") = some (chrs ".") := by decide
  rw [this] at hdec
  injection hdec with hh
  exact hdot hh.symm

theorem encode_ne_dots (s : UStr) (hval : ∀ c ∈ s, c < 0x110000) (hdots : s ≠ chrs "..") :
    utf8Encode s ≠ chrs ".." := by
  intro heq
  have hdec := utf8Decode_utf8Encode s hval
  rw [heq] at hdec
  have : utf8Decode (chrs "..") = some (chrs "..") := by decide
  rw [this] at hdec
  injection hdec with hh
  exact hdots hh.symm

theorem normSegs_quoted (S : List UStr)
    (h : ∀ s ∈ S, s ≠ [] ∧ s ≠ chrs "." ∧ s ≠ chrs ".." ∧ ∀ c ∈ s, c < 0x110000) :
    ∀ acc, normSegs (S.map quote_path_segment) acc = .ok (acc ++ S) := by
  induction S with
  | nil => intro acc; simp [normSegs]
  | cons s S ih =>
    intro acc
    obtain ⟨hne, hdot, hdots, hval⟩ := h s (by simp)
    have hu := quoted_unquotes s hval
    rw [List.map_cons, normSegs, hu]
    rw [if_neg (by
      intro hc
      rcases hc with hc | hc
      · exact utf8Encode_ne_nil s hne hc
      · exact encode_ne_dot s hval hdot hc)]
    rw [if_neg (encode_ne_dots s hval hdots)]
    rw [utf8Decode_utf8Encode s hval]
    show normSegs (List.map quote_path_segment S) (acc ++ [s]) = Except.ok (acc ++ s :: S)
    rw [ih (fun x hx => h x (by simp [hx])) (acc ++ [s]), List.append_assoc]
    rfl

/- ### Helper lemmas: `traversal_path` of a joined tuple -/

theorem quoted_parts_ne_nil (S : List UStr) (h : ∀ s ∈ S, s ≠ []) :
    ∀ p ∈ S.map quote_path_segment, p ≠ [] := by
  intro p hp
  obtain ⟨s, hs, rfl⟩ := List.mem_map.mp hp
  exact url_quote_ne_nil _ (utf8Encode_ne_nil s (h s hs))

theorem quoted_parts_no47 (S : List UStr) : ∀ p ∈ S.map quote_path_segment, 47 ∉ p := by
  intro p hp
  obtain ⟨s, hs, rfl⟩ := List.mem_map.mp hp
  exact not_mem_47_url_quote _

theorem traversal_path_join (S : List UStr)
    (h : ∀ s ∈ S, s ≠ [] ∧ s ≠ chrs "." ∧ s ≠ chrs ".." ∧ ∀ c ∈ s, c < 0x110000) :
    traversal_path (_join_path_tuple S) = .ok S := by
  cases S with
  | nil => decide
  | cons x rest =>
    have hqx : quote_path_segment x ≠ [] :=
      url_quote_ne_nil _ (utf8Encode_ne_nil x (h x (by simp)).1)
    have hpne := quoted_parts_ne_nil (x :: rest) (fun s hs => (h s hs).1)
    have hp47 := quoted_parts_no47 (x :: rest)
    unfold _join_path_tuple
    rw [if_neg (by simp), List.map_cons, if_neg (joinSlash_ne_nil _ _ hqx)]
    unfold traversal_path
    rw [rstripSlash_of_revHead _ (joinSlash_revHead _ (by simp)
      (by rw [← List.map_cons]; exact hpne) (by rw [← List.map_cons]; exact hp47))]
    rw [lstripSlash_of_head _ (by
      rw [joinSlash_head? _ _ hqx]
      exact head?_ne_of_not_mem (not_mem_47_url_quote _))]
    rw [pySplit_joinSlash _ (by simp) (by rw [← List.map_cons]; exact hp47)]
    rw [← List.map_cons]
    simpa using normSegs_quoted (x :: rest) h []

theorem traversal_path_join_abs (S : List UStr)
    (h : ∀ s ∈ S, s ≠ [] ∧ s ≠ chrs "." ∧ s ≠ chrs ".." ∧ ∀ c ∈ s, c < 0x110000) :
    traversal_path (_join_path_tuple ([] :: S)) = .ok S := by
  cases S with
  | nil => decide
  | cons x rest =>
    have hqx : quote_path_segment x ≠ [] :=
      url_quote_ne_nil _ (utf8Encode_ne_nil x (h x (by simp)).1)
    have hpne := quoted_parts_ne_nil (x :: rest) (fun s hs => (h s hs).1)
    have hp47 := quoted_parts_no47 (x :: rest)
    have hq0 : quote_path_segment ([] : UStr) = [] := rfl
    unfold _join_path_tuple
    rw [if_neg (by simp), List.map_cons, List.map_cons, hq0, joinSlash, List.nil_append,
      if_neg (by simp)]
    unfold traversal_path
    rw [rstripSlash_of_revHead _ (by
      rw [List.reverse_cons]
      have hJ : joinSlash (quote_path_segment x :: rest.map quote_path_segment) ≠ [] :=
        joinSlash_ne_nil _ _ hqx
      rw [List.head?_append_of_ne_nil _ (by simpa using hJ)]
      exact joinSlash_revHead _ (by simp)
        (by rw [← List.map_cons]; exact hpne) (by rw [← List.map_cons]; exact hp47))]
    rw [lstripSlash, if_pos rfl]
    rw [lstripSlash_of_head _ (by
      rw [joinSlash_head? _ _ hqx]
      exact head?_ne_of_not_mem (not_mem_47_url_quote _))]
    rw [pySplit_joinSlash _ (by simp) (by rw [← List.map_cons]; exact hp47)]
    rw [← List.map_cons]
    simpa using normSegs_quoted (x :: rest) h []

theorem _join_path_tuple_ne_nil (t : List UStr) : _join_path_tuple t ≠ [] := by
  unfold _join_path_tuple
  split_ifs with h1 h2
  · decide
  · decide
  · exact h2

/- ### Helper lemmas: the segment walk -/

theorem childLookup_eq (g : Graph) (ob : Nat) (s : UStr) (cs : List (UStr × Nat))
    (h : g.children ob = some cs) : childLookup g ob s = assocLookup s cs := by
  rw [childLookup, h]

theorem childLookup_none_eq (g : Graph) (ob : Nat) (s : UStr)
    (h : g.children ob = none) : childLookup g ob s = none := by
  rw [childLookup, h]

theorem walkLookup_append_single (g : Graph) (s : UStr) :
    ∀ (segs : List UStr) (ob : Nat),
      walkLookup g ob (segs ++ [s]) =
        (walkLookup g ob segs).bind (fun m => childLookup g m s) := by
  intro segs
  induction segs with
  | nil =>
    intro ob
    rw [List.nil_append, walkLookup]
    cases hc : childLookup g ob s with
    | none => simp [walkLookup, hc]
    | some c => simp [walkLookup, hc]
  | cons x segs ih =>
    intro ob
    rw [List.cons_append, walkLookup]
    cases hc : childLookup g ob x with
    | none => rw [walkLookup, hc]; rfl
    | some c => rw [walkLookup, hc]; exact ih c

theorem mgtWalk_full (g : Graph) (root : Nat) (vt sub0 vpt : List UStr) :
    ∀ (segs : List UStr) (i ob vr n : Nat), walkLookup g ob segs = some n →
      (∀ s ∈ segs, s.take 2 ≠ chrs "@@") →
      mgtWalk g root vt (-1) sub0 vpt segs i ob vr = ⟨n, [], sub0, vpt, vr, vt, root⟩ := by
  intro segs
  induction segs with
  | nil =>
    intro i ob vr n hw _
    rw [walkLookup] at hw
    injection hw with h
    rw [mgtWalk, h]
  | cons s segs ih =>
    intro i ob vr n hw hmk
    rw [walkLookup] at hw
    cases hc : childLookup g ob s with
    | none => rw [hc] at hw; cases hw
    | some c =>
      rw [hc] at hw
      cases hch : g.children ob with
      | none => rw [childLookup_none_eq g ob s hch] at hc; cases hc
      | some cs =>
        rw [childLookup_eq g ob s cs hch] at hc
        rw [mgtWalk, if_neg (hmk s (by simp)), hch]
        simp only [hc]
        rw [if_neg (show ((i : Nat) : Int) ≠ -1 by omega)]
        exact ih (i + 1) c vr n hw (fun t ht => hmk t (by simp [ht]))

theorem mgtWalk_stop (g : Graph) (root : Nat) (vt sub0 vpt : List UStr) (m : Nat)
    (seg : UStr) (post : List UStr) (hm : seg.take 2 ≠ chrs "@@")
    (hc : childLookup g m seg = none) :
    ∀ (pre : List UStr) (i ob vr : Nat), walkLookup g ob pre = some m →
      (∀ s ∈ pre, s.take 2 ≠ chrs "@@") →
      mgtWalk g root vt (-1) sub0 vpt (pre ++ seg :: post) i ob vr =
        ⟨m, seg, vpt.drop (i + pre.length + 1), vpt.take (i + pre.length), vr, vt, root⟩ := by
  intro pre
  induction pre with
  | nil =>
    intro i ob vr hw _
    rw [walkLookup] at hw
    injection hw with h
    rw [List.nil_append, mgtWalk, if_neg hm, h]
    have e1 : ((-1 : Int) + (i : Int) + 1).toNat = i := by omega
    simp only [List.length_nil, Nat.add_zero]
    cases hch : g.children m with
    | none => rw [e1]
    | some cs =>
      rw [childLookup_eq g m seg cs hch] at hc
      simp only [hc]
      rw [e1]
  | cons s pre ih =>
    intro i ob vr hw hmk
    rw [walkLookup] at hw
    cases hgc : childLookup g ob s with
    | none => rw [hgc] at hw; cases hw
    | some c =>
      rw [hgc] at hw
      cases hch : g.children ob with
      | none => rw [childLookup_none_eq g ob s hch] at hgc; cases hgc
      | some cs =>
        rw [childLookup_eq g ob s cs hch] at hgc
        rw [List.cons_append, mgtWalk, if_neg (hmk s (by simp)), hch]
        simp only [hgc]
        rw [if_neg (show ((i : Nat) : Int) ≠ -1 by omega)]
        rw [ih (i + 1) c vr hw (fun t ht => hmk t (by simp [ht]))]
        have e1 : i + 1 + pre.length + 1 = i + (s :: pre).length + 1 := by
          rw [List.length_cons]; omega
        have e2 : i + 1 + pre.length = i + (s :: pre).length := by
          rw [List.length_cons]; omega
        rw [e1, e2]

theorem mgtWalk_marker (g : Graph) (root : Nat) (vt sub0 vpt : List UStr) (m : Nat)
    (seg : UStr) (post : List UStr) (hm : seg.take 2 = chrs "@@") :
    ∀ (pre : List UStr) (i ob vr : Nat), walkLookup g ob pre = some m →
      (∀ s ∈ pre, s.take 2 ≠ chrs "@@") →
      mgtWalk g root vt (-1) sub0 vpt (pre ++ seg :: post) i ob vr =
        ⟨m, seg.drop 2, vpt.drop (i + pre.length + 1), vpt.take (i + pre.length), vr, vt,
          root⟩ := by
  intro pre
  induction pre with
  | nil =>
    intro i ob vr hw _
    rw [walkLookup] at hw
    injection hw with h
    rw [List.nil_append, mgtWalk, if_pos hm, h]
    have e1 : ((-1 : Int) + (i : Int) + 1).toNat = i := by omega
    simp only [List.length_nil, Nat.add_zero]
    rw [e1]
  | cons s pre ih =>
    intro i ob vr hw hmk
    rw [walkLookup] at hw
    cases hgc : childLookup g ob s with
    | none => rw [hgc] at hw; cases hw
    | some c =>
      rw [hgc] at hw
      cases hch : g.children ob with
      | none => rw [childLookup_none_eq g ob s hch] at hgc; cases hgc
      | some cs =>
        rw [childLookup_eq g ob s cs hch] at hgc
        rw [List.cons_append, mgtWalk, if_neg (hmk s (by simp)), hch]
        simp only [hgc]
        rw [if_neg (show ((i : Nat) : Int) ≠ -1 by omega)]
        rw [ih (i + 1) c vr hw (fun t ht => hmk t (by simp [ht]))]
        have e1 : i + 1 + pre.length + 1 = i + (s :: pre).length + 1 := by
          rw [List.length_cons]; omega
        have e2 : i + 1 + pre.length = i + (s :: pre).length := by
          rw [List.length_cons]; omega
        rw [e1, e2]

theorem mgtWalk_vrp_traversed (g : Graph) (root : Nat) (vt sub0 vpt : List UStr)
    (hlen : vt.length ≤ vpt.length) :
    ∀ (segs : List UStr) (i ob vr : Nat),
      (mgtWalk g root vt ((vt.length : Int) - 1) sub0 vpt segs i ob vr).virtual_root_path =
          vt ∧
        vt.length ≤
          (mgtWalk g root vt ((vt.length : Int) - 1) sub0 vpt segs i ob vr).traversed.length := by
  intro segs
  induction segs with
  | nil =>
    intro i ob vr
    simp [mgtWalk, hlen]
  | cons s segs ih =>
    intro i ob vr
    rw [mgtWalk]
    by_cases hs : s.take 2 = chrs "@@"
    · rw [if_pos hs]
      refine ⟨rfl, ?_⟩
      simp only [List.length_take]
      have e : ((vt.length : Int) - 1 + (i : Int) + 1).toNat = vt.length + i := by omega
      rw [e]
      omega
    · rw [if_neg hs]
      cases hch : g.children ob with
      | none =>
        refine ⟨rfl, ?_⟩
        simp only [List.length_take]
        have e : ((vt.length : Int) - 1 + (i : Int) + 1).toNat = vt.length + i := by omega
        rw [e]
        omega
      | some cs =>
        cases ha : assocLookup s cs with
        | none =>
          simp only [ha]
          refine ⟨trivial, ?_⟩
          simp only [List.length_take]
          have e : ((vt.length : Int) - 1 + (i : Int) + 1).toNat = vt.length + i := by omega
          rw [e]
          omega
        | some next =>
          simp only [ha]
          exact ih (i + 1) next _

/- ### Helper lemmas: lineage -/

theorem lineage?_head (g : Graph) : ∀ (fuel n : Nat) (chain : List Nat),
    lineage? g fuel n = some chain → ∃ t, chain = n :: t := by
  intro fuel n chain h
  cases fuel with
  | zero => cases h
  | succ f =>
    rw [lineage?] at h
    cases hp : g.parent n with
    | none => rw [hp] at h; injection h with h; exact ⟨[], h.symm⟩
    | some p =>
      rw [hp] at h
      simp only [] at h
      cases hl : lineage? g f p with
      | none => rw [hl] at h; cases h
      | some l => rw [hl] at h; injection h with h; exact ⟨l, h.symm⟩

theorem lineage?_ne_nil (g : Graph) (fuel n : Nat) (chain : List Nat)
    (h : lineage? g fuel n = some chain) : chain ≠ [] := by
  obtain ⟨t, rfl⟩ := lineage?_head g fuel n chain h
  simp

theorem lineage?_pos (g : Graph) (fuel n : Nat) (chain : List Nat)
    (h : lineage? g fuel n = some chain) : 1 ≤ fuel := by
  cases fuel with
  | zero => cases h
  | succ f => omega

theorem lineage?_last_parent (g : Graph) : ∀ (fuel n : Nat) (chain : List Nat) (r : Nat),
    lineage? g fuel n = some chain → chain.getLast? = some r → g.parent r = none := by
  intro fuel
  induction fuel with
  | zero => intro n chain r h; cases h
  | succ f ih =>
    intro n chain r h hlast
    rw [lineage?] at h
    cases hp : g.parent n with
    | none =>
      rw [hp] at h
      injection h with h
      subst h
      injection hlast with h
      rw [← h]
      exact hp
    | some p =>
      rw [hp] at h
      simp only [] at h
      cases hl : lineage? g f p with
      | none => rw [hl] at h; cases h
      | some l =>
        rw [hl] at h
        injection h with h
        subst h
        obtain ⟨t, rfl⟩ := lineage?_head g f p l hl
        rw [List.getLast?_cons_cons] at hlast
        exact ih p (p :: t) r hl hlast

theorem lineage_walkLookup (g : Graph) : ∀ (fuel n : Nat) (chain : List Nat) (r : Nat),
    lineage? g fuel n = some chain → ChainOK g chain → chain.getLast? = some r →
    walkLookup g r (revNames g chain) = some n := by
  intro fuel
  induction fuel with
  | zero => intro n chain r h; cases h
  | succ f ih =>
    intro n chain r hlin hok hlast
    rw [lineage?] at hlin
    cases hp : g.parent n with
    | none =>
      rw [hp] at hlin
      injection hlin with h
      subst h
      injection hlast with h
      subst h
      rw [show revNames g [n] = [] from rfl, walkLookup]
      simp
    | some p =>
      rw [hp] at hlin
      simp only [] at hlin
      cases hl : lineage? g f p with
      | none => rw [hl] at hlin; cases hlin
      | some l =>
        rw [hl] at hlin
        injection hlin with h
        subst h
        obtain ⟨t, rfl⟩ := lineage?_head g f p l hl
        rw [ChainOK] at hok
        obtain ⟨⟨nm, hn, _, hcl⟩, hok2⟩ := hok
        rw [List.getLast?_cons_cons] at hlast
        have hwl := ih p (p :: t) r hl hok2 hlast
        have hrn : revNames g (n :: p :: t) =
            revNames g (p :: t) ++ [(g.name n).getD []] := by
          unfold revNames
          rw [List.dropLast_cons₂, List.map_cons, List.reverse_cons]
        rw [hrn, walkLookup_append_single, hwl, hn]
        simpa using hcl

theorem chainOK_names (g : Graph) : ∀ (chain : List Nat), ChainOK g chain →
    ∀ s ∈ revNames g chain, normalSeg s := by
  intro chain
  induction chain with
  | nil => intro _ s hs; simp [revNames] at hs
  | cons c rest ih =>
    intro hok s hs
    cases rest with
    | nil => simp [revNames] at hs
    | cons p t =>
      rw [ChainOK] at hok
      obtain ⟨⟨nm, hn, hnorm, _⟩, hok2⟩ := hok
      have hrn : revNames g (c :: p :: t) =
          revNames g (p :: t) ++ [(g.name c).getD []] := by
        unfold revNames
        rw [List.dropLast_cons₂, List.map_cons, List.reverse_cons]
      rw [hrn] at hs
      rcases List.mem_append.mp hs with h1 | h1
      · exact ih hok2 s h1
      · have : s = (g.name c).getD [] := by simpa using h1
        rw [this, hn]
        exact hnorm

theorem model_path_tuple_shape (g : Graph) (fuel n : Nat) (chain : List Nat) (r : Nat)
    (hlin : lineage? g fuel n = some chain) (hlast : chain.getLast? = some r)
    (hroot : g.name r = none ∨ g.name r = some []) :
    model_path_tuple? g fuel n [] = some ([] :: revNames g chain) := by
  unfold model_path_tuple?
  rw [hlin]
  show some _ = some _
  congr 1
  simp only []
  rw [List.append_nil]
  have hd : chain.dropLast ++ [r] = chain :=
    List.dropLast_append_getLast? r (by rw [Option.mem_def]; exact hlast)
  conv_lhs => rw [← hd]
  rw [List.map_append, List.reverse_append]
  have hname : (g.name r).getD [] = [] := by
    rcases hroot with h | h <;> rw [h] <;> rfl
  simp only [List.map_cons, List.map_nil, List.reverse_cons, List.reverse_nil,
    List.nil_append, hname]
  rfl

/- ### Helper lemmas: unfolding the traverser call -/

theorem envPath_pathinfo (p : ByteStr) (hp : p ≠ []) :
    envPath ⟨none, some p, none⟩ = .ok (p, []) := by
  unfold envPath
  simp only []
  rw [if_neg hp]

theorem mgtCall_pathinfo (g : Graph) (root : Nat) (p : ByteStr) (vpt : List UStr)
    (hp : p ≠ []) (hp2 : p ≠ chrs "/") (htp : traversal_path p = .ok vpt) :
    mgtCall g root ⟨none, some p, none⟩ =
      .ok (mgtWalk g root [] (-1) [] vpt vpt 0 root root) := by
  unfold mgtCall
  rw [envPath_pathinfo p hp]
  simp only [Bind.bind, Except.bind]
  rw [if_neg (by
    intro hc
    rcases hc with hc | hc
    · exact hp2 hc
    · exact hp hc)]
  rw [htp]
  rfl

theorem mgtCall_pathinfo_slash (g : Graph) (root : Nat) (p : ByteStr)
    (hp : p = [] ∨ p = chrs "/") :
    mgtCall g root ⟨none, some p, none⟩ = .ok ⟨root, [], [], [], root, [], root⟩ := by
  unfold mgtCall envPath
  rcases hp with hp | hp <;> subst hp <;> simp [Bind.bind, Except.bind] <;> rfl

theorem find_root?_of_parent_none (g : Graph) (fuel r : Nat) (h : g.parent r = none)
    (hf : 1 ≤ fuel) : find_root? g fuel r = some r := by
  cases fuel with
  | zero => omega
  | succ f => rw [find_root?, h]

theorem traverse?_abs (g : Graph) (fuel n : Nat) (parg : PathArg) (r : Nat)
    (habs : (pathArgStr parg).head? = some 47) (hfr : find_root? g fuel n = some r) :
    traverse? g fuel n parg =
      some (mgtCall g r ⟨none, some (pathArgStr parg), none⟩) := by
  unfold traverse?
  simp only [habs, hfr, if_true]
  rfl

theorem traverse?_rel (g : Graph) (fuel n : Nat) (parg : PathArg)
    (hrel : (pathArgStr parg).head? ≠ some 47) :
    traverse? g fuel n parg =
      some (mgtCall g n ⟨none, some (pathArgStr parg), none⟩) := by
  unfold traverse?
  simp only []
  rw [if_neg hrel]
  rfl

theorem _join_path_tuple_abs_cons (x : UStr) (rest : List UStr) :
    _join_path_tuple ([] :: x :: rest) =
      47 :: joinSlash (quote_path_segment x :: rest.map quote_path_segment) := by
  unfold _join_path_tuple
  rw [if_neg (by simp), List.map_cons, List.map_cons,
    show quote_path_segment ([] : UStr) = [] from rfl, joinSlash, List.nil_append,
    if_neg (by simp)]

theorem find_model?_of_traverse (g : Graph) (fuel n : Nat) (parg : PathArg)
    (d : TravResult) (h : traverse? g fuel n parg = some (.ok d)) :
    find_model? g fuel n parg =
      some (if d.view_name = [] then .ok d.context else .error .keyError) := by
  unfold find_model?
  rw [h]
  rfl

/- ### Claim theorems -/

/-- Claim C7: `decode_path` (the embedded `traversal_path`) satisfies the
listed input/output examples: `/` maps to the empty tuple; `/foo/bar/baz` and
`foo/bar/baz` both map to `(foo, bar, baz)`; `/foo//bar//baz/` collapses the
empty segments; `/foo/bar/baz/..` applies parent-deletion; and
`/my%20archives/hello` percent-decodes to `(my archives, hello)`. -/
theorem claim_C7 :
    traversal_path (chrs "/") = .ok [] ∧
    traversal_path (chrs "/foo/bar/baz") = .ok [chrs "foo", chrs "bar", chrs "baz"] ∧
    traversal_path (chrs "foo/bar/baz") = .ok [chrs "foo", chrs "bar", chrs "baz"] ∧
    traversal_path (chrs "/foo//bar//baz/") = .ok [chrs "foo", chrs "bar", chrs "baz"] ∧
    traversal_path (chrs "/foo/bar/baz/..") = .ok [chrs "foo", chrs "bar"] ∧
    traversal_path (chrs "/my%20archives/hello") =
      .ok [chrs "my archives", chrs "hello"] := by
  refine ⟨by decide, by decide, by decide, by decide, by decide, by decide⟩

/-- Claim C4, counterexample: `_join_path_tuple (("foo", "bar"))` is
`"foo/bar"`, not `"/foo/bar"` as the claim states -- no leading slash is
added for a tuple that does not begin with the empty string. -/
theorem claim_C4_counterexample :
    _join_path_tuple [chrs "foo", chrs "bar"] = chrs "foo/bar" ∧
    chrs "foo/bar" ≠ chrs "/foo/bar" := by
  refine ⟨by decide, by decide⟩

/-- Claim C4, amended: `_join_path_tuple` of the empty sequence is `/`;
`_join_path_tuple (("foo", "bar"))` is `"foo/bar"` (the leading `/` of an
absolute path comes only from a leading empty segment, as in
`(("", "foo", "bar"))` which joins to `"/foo/bar"`); in general, for a
nonempty sequence whose quoted join is nonempty, the result is exactly the
quoted segments joined with `/`, with no extra prefix. -/
theorem claim_C4 :
    _join_path_tuple [] = chrs "/" ∧
    _join_path_tuple [chrs "foo", chrs "bar"] = chrs "foo/bar" ∧
    _join_path_tuple [chrs "", chrs "foo", chrs "bar"] = chrs "/foo/bar" ∧
    ∀ t : List UStr, t ≠ [] → joinSlash (t.map quote_path_segment) ≠ [] →
      _join_path_tuple t = joinSlash (t.map quote_path_segment) := by
  refine ⟨by decide, by decide, by decide, ?_⟩
  intro t ht hj
  unfold _join_path_tuple
  rw [if_neg ht, if_neg hj]

/-- Claim C4, witness: the general clause of `claim_C4` applied to the
one-segment tuple `("a")`. -/
theorem claim_C4_witness :
    _join_path_tuple [chrs "a"] = joinSlash ([chrs "a"].map quote_path_segment) :=
  claim_C4.2.2.2 [chrs "a"] (by decide) (by decide)

/-- Claim C2: the Graph Traverser never raises on a missing or
non-traversable child.  Conjunct 1: whenever the path decodes, the traverser
call returns a result (never an exception).  Conjunct 2: when the walk
reaches a segment whose child lookup fails (key absent or no `__getitem__`),
the returned result has `context` equal to the last successfully-reached node
and `view_name` equal to that segment, with the following segments as
`subpath`.  Conjunct 3: `find_model` raises a `KeyError`-class failure exactly
when the resulting `view_name` is nonempty, and otherwise returns the
context.  Conjunct 4: for the three-level graph root(0) -> a(1) -> b(2),
traversing `/a/b/c` yields `context = b`, `view_name = "c"`, `subpath = ()`,
`traversed = ("a", "b")`. -/
theorem claim_C2 :
    (∀ (g : Graph) (root : Nat) (p : ByteStr) (vpt : List UStr),
      traversal_path p = .ok vpt →
      ∃ res, mgtCall g root ⟨none, some p, none⟩ = .ok res) ∧
    (∀ (g : Graph) (root : Nat) (vt sub0 vpt : List UStr) (m : Nat) (seg : UStr)
      (post pre : List UStr) (i ob vr : Nat),
      childLookup g m seg = none → seg.take 2 ≠ chrs "@@" →
      walkLookup g ob pre = some m → (∀ s ∈ pre, s.take 2 ≠ chrs "@@") →
      mgtWalk g root vt (-1) sub0 vpt (pre ++ seg :: post) i ob vr =
        ⟨m, seg, vpt.drop (i + pre.length + 1), vpt.take (i + pre.length), vr, vt, root⟩) ∧
    (∀ (g : Graph) (fuel n : Nat) (parg : PathArg) (d : TravResult),
      traverse? g fuel n parg = some (.ok d) →
      ((find_model? g fuel n parg = some (.error .keyError)) ↔ d.view_name ≠ []) ∧
      (d.view_name = [] → find_model? g fuel n parg = some (.ok d.context))) ∧
    mgtCall gab 0 ⟨none, some (chrs "/a/b/c"), none⟩ =
      .ok ⟨2, chrs "c", [], [chrs "a", chrs "b"], 0, [], 0⟩ := by
  refine ⟨?_, ?_, ?_, by decide⟩
  · intro g root p vpt htp
    by_cases hp : p = [] ∨ p = chrs "/"
    · exact ⟨_, mgtCall_pathinfo_slash g root p hp⟩
    · push_neg at hp
      exact ⟨_, mgtCall_pathinfo g root p vpt hp.1 hp.2 htp⟩
  · intro g root vt sub0 vpt m seg post pre i ob vr hc hm hw hpre
    exact mgtWalk_stop g root vt sub0 vpt m seg post hm hc pre i ob vr hw hpre
  · intro g fuel n parg d h
    rw [find_model?_of_traverse g fuel n parg d h]
    by_cases hv : d.view_name = []
    · rw [if_pos hv]
      refine ⟨⟨fun hh => absurd (Option.some.inj hh) (by simp), fun hh => absurd hv hh⟩, ?_⟩
      intro _
      rfl
    · rw [if_neg hv]
      refine ⟨⟨fun _ => hv, fun _ => rfl⟩, fun hh => absurd hh hv⟩

/-- Claim C2, witness: the missing-child stop of `claim_C2` at the concrete
graph root(0) -> a(1) -> b(2): from the root, after walking `a`, the segment
`x` has no child at node 1, so the walk stops with `context = 1` and
`view_name = "x"`. -/
theorem claim_C2_witness :
    mgtWalk gab 0 [] (-1) [] [chrs "a", chrs "x"] ([chrs "a"] ++ chrs "x" :: []) 0 0 0 =
      ⟨1, chrs "x", ([chrs "a", chrs "x"] : List UStr).drop (0 + [chrs "a"].length + 1),
        ([chrs "a", chrs "x"] : List UStr).take (0 + [chrs "a"].length), 0, [], 0⟩ :=
  claim_C2.2.1 gab 0 [] [] [chrs "a", chrs "x"] 1 (chrs "x") [] [chrs "a"] 0 0 0
    (by decide) (by decide) (by decide) (by decide)

/-- Claim C3, counterexample: with a virtual root in effect
(`HTTP_X_VHM_ROOT = /a`) on the graph root(0) -> a(1), traversing `/@@v`
stops at the marker, but the returned `traversed` is
`("a", "@@v")` -- it contains the view-marker segment, contradicting the
claim that the marker never appears in `traversed`. -/
theorem claim_C3_counterexample :
    mgtCall gab 0 ⟨none, some (chrs "/@@v"), some (chrs "/a")⟩ =
      .ok ⟨1, chrs "v", [], [chrs "a", chrs "@@v"], 1, [chrs "a"], 0⟩ ∧
    (chrs "@@v").take 2 = chrs "@@" ∧
    chrs "@@v" ∈ [chrs "a", chrs "@@v"] := by
  refine ⟨by decide, by decide, by decide⟩

/-- Claim C3, amended: when no virtual-root key is present and the walk
reaches the first segment whose first two characters are `@@` (all earlier
segments are marker-free and resolve to children), the traversal stops
there: `context` is the node reached so far, `view_name` is the marker text
after `@@`, the following segments become `subpath`, `traversed` is exactly
the earlier segments (so the marker, which cannot occur among them, is not
in `traversed` and is never used for child lookup).  With a virtual root the
`traversed` slice can include the marker (see the counterexample).  The
second conjunct is the concrete example: traversing `/a/b/@@edit` on
root(0) -> a(1) -> b(2) yields `context = b` and `view_name = "edit"`. -/
theorem claim_C3 :
    (∀ (g : Graph) (root : Nat) (p : ByteStr) (pre : List UStr) (mk : UStr)
      (post : List UStr) (m : Nat),
      traversal_path p = .ok (pre ++ mk :: post) →
      p ≠ [] → p ≠ chrs "/" →
      mk.take 2 = chrs "@@" →
      walkLookup g root pre = some m →
      (∀ s ∈ pre, s.take 2 ≠ chrs "@@") →
      mgtCall g root ⟨none, some p, none⟩ =
          .ok ⟨m, mk.drop 2, post, pre, root, [], root⟩ ∧
        mk ∉ pre) ∧
    mgtCall gab 0 ⟨none, some (chrs "/a/b/@@edit"), none⟩ =
      .ok ⟨2, chrs "edit", [], [chrs "a", chrs "b"], 0, [], 0⟩ := by
  refine ⟨?_, by decide⟩
  intro g root p pre mk post m htp hp hp2 hmk hw hpre
  constructor
  · rw [mgtCall_pathinfo g root p (pre ++ mk :: post) hp hp2 htp]
    rw [mgtWalk_marker g root [] [] (pre ++ mk :: post) m mk post hmk pre 0 root root hw hpre]
    have hdrop : (pre ++ mk :: post).drop (0 + pre.length + 1) = post := by
      rw [List.append_cons, Nat.zero_add]
      rw [show pre.length + 1 = (pre ++ [mk]).length by simp]
      exact List.drop_left (pre ++ [mk]) post
    have htake : (pre ++ mk :: post).take (0 + pre.length) = pre := by
      rw [Nat.zero_add]
      exact List.take_left pre (mk :: post)
    rw [hdrop, htake]
  · intro hmem
    exact hpre mk hmem hmk

/-- Claim C3, witness: the amended marker rule of `claim_C3` at the concrete
graph root(0) -> a(1) -> b(2) and path `/a/b/@@edit`: the walk reaches the
marker after `a` and `b`, stops at `context = 2` with `view_name = "edit"`,
and the marker is not in `traversed`. -/
theorem claim_C3_witness :
    mgtCall gab 0 ⟨none, some (chrs "/a/b/@@edit"), none⟩ =
        .ok ⟨2, (chrs "@@edit").drop 2, [], [chrs "a", chrs "b"], 0, [], 0⟩ ∧
      chrs "@@edit" ∉ [chrs "a", chrs "b"] :=
  claim_C3.1 gab 0 (chrs "/a/b/@@edit") [chrs "a", chrs "b"] (chrs "@@edit") [] 2
    (by decide) (by decide) (by decide) (by decide) (by decide) (by decide)

/-- Claim C5, counterexample: `find_model` does not always start the walk at
the node itself.  On the graph root(0) -> a(1), `find_model(a, "/")` returns
the root 0: the absolute path makes `traverse` replace the start node with
`find_root(a)`.  Had the traverser run with node 1 as root, as the claim
states, the result's context would have been 1 (third conjunct), and
`find_model` would have returned 1, not 0. -/
theorem claim_C5_counterexample :
    find_model? gab 3 1 (PathArg.str (chrs "/")) = some (.ok 0) ∧
    mgtCall gab 1 ⟨none, some (chrs "/"), none⟩ = .ok ⟨1, [], [], [], 1, [], 1⟩ ∧
    (0 : Nat) ≠ 1 := by
  refine ⟨by decide, by decide, by decide⟩

/-- Claim C5, amended: `find_model(node, path)` converts a tuple path to a
string, then runs the Graph Traverser with `node` itself as root/start only
for relative inputs (string form not beginning with `/`); for absolute
inputs the walk starts at `find_root(node)` instead.  In both cases the
environment carries the path, and the resulting context is returned when
`view_name` is empty. -/
theorem claim_C5 :
    (∀ (g : Graph) (fuel n : Nat) (parg : PathArg),
      (pathArgStr parg).head? ≠ some 47 →
      traverse? g fuel n parg =
        some (mgtCall g n ⟨none, some (pathArgStr parg), none⟩)) ∧
    (∀ (g : Graph) (fuel n : Nat) (parg : PathArg) (r : Nat),
      (pathArgStr parg).head? = some 47 →
      find_root? g fuel n = some r →
      traverse? g fuel n parg =
        some (mgtCall g r ⟨none, some (pathArgStr parg), none⟩)) ∧
    (∀ (g : Graph) (fuel n : Nat) (parg : PathArg) (d : TravResult),
      traverse? g fuel n parg = some (.ok d) → d.view_name = [] →
      find_model? g fuel n parg = some (.ok d.context)) := by
  refine ⟨?_, ?_, ?_⟩
  · intro g fuel n parg h
    exact traverse?_rel g fuel n parg h
  · intro g fuel n parg r h hfr
    exact traverse?_abs g fuel n parg r h hfr
  · intro g fuel n parg d h hv
    rw [find_model?_of_traverse g fuel n parg d h, if_pos hv]

/-- Claim C5, witness: the relative-path clause of `claim_C5` at the graph
root(0) -> a(1) -> b(2): `traverse(b, "x")` runs the traverser with node 2
itself as the start. -/
theorem claim_C5_witness :
    traverse? gab 1 2 (PathArg.str (chrs "x")) =
      some (mgtCall gab 2 ⟨none, some (pathArgStr (PathArg.str (chrs "x"))), none⟩) :=
  claim_C5.1 gab 1 2 (PathArg.str (chrs "x")) (by decide)

/-- Claim C6, counterexample: with the virtual-root key `/a` and request
path `/..` on the graph root(0) -> a(1), the traverser returns
`traversed = ()` but `virtual_root_path = ("a",)`: the `..` segment erased
the virtual-root prefix from the combined decoded path, so
`len(traversed) >= len(virtual_root_path)` fails. -/
theorem claim_C6_counterexample :
    mgtCall gab 0 ⟨none, some (chrs "/.."), some (chrs "/a")⟩ =
      .ok ⟨0, [], [], [], 0, [chrs "a"], 0⟩ ∧
    ([] : List UStr).length < [chrs "a"].length := by
  refine ⟨by decide, by decide⟩

/-- Claim C6, amended: when a virtual-root key is present and the combined
decoded path (`traversal_path(vroot_path + path)`) is at least as long as the
decoded virtual-root tuple, every result the traverser returns (view-marker
stop, non-traversable stop, missing-child stop, and full-walk completion)
satisfies `len(traversed) >= len(virtual_root_path)`.  Paths whose `..`
segments delete into the virtual-root prefix can shrink the combined tuple
below that bound and violate the invariant (see the counterexample). -/
theorem claim_C6 :
    ∀ (g : Graph) (root : Nat) (env : Environ) (vp path : ByteStr)
      (sub vt vpt : List UStr) (r : TravResult),
      env.vroot = some vp →
      envPath env = .ok (path, sub) →
      traversal_path vp = .ok vt →
      traversal_path (vp ++ path) = .ok vpt →
      vt.length ≤ vpt.length →
      mgtCall g root env = .ok r →
      r.virtual_root_path.length ≤ r.traversed.length := by
  intro g root env vp path sub vt vpt r hvr henv hvt hvpt hlen hcall
  unfold mgtCall at hcall
  rw [henv] at hcall
  simp only [Bind.bind, Except.bind] at hcall
  rw [hvr] at hcall
  simp only [] at hcall
  rw [hvt] at hcall
  simp only [Except.map] at hcall
  by_cases hsc : vp ++ path = chrs "/" ∨ vp ++ path = []
  · rw [if_pos hsc] at hcall
    have hvpt0 : vpt = [] := by
      rcases hsc with h | h <;> rw [h] at hvpt
      · have : traversal_path (chrs "/") = .ok ([] : List UStr) := by decide
        rw [this] at hvpt
        exact (Except.ok.inj hvpt).symm
      · have : traversal_path ([] : ByteStr) = .ok ([] : List UStr) := by decide
        rw [this] at hvpt
        exact (Except.ok.inj hvpt).symm
    have hr : r = ⟨root, [], sub, [], root, vt, root⟩ := by
      injection hcall with h
      exact h.symm
    rw [hr]
    simp only []
    rw [hvpt0] at hlen
    simpa using hlen
  · rw [if_neg hsc] at hcall
    rw [hvpt] at hcall
    simp only [Except.bind] at hcall
    have hr : r = mgtWalk g root vt ((vt.length : Int) - 1) sub vpt vpt 0 root root := by
      injection hcall with h
      exact h.symm
    obtain ⟨h1, h2⟩ := mgtWalk_vrp_traversed g root vt sub vpt hlen vpt 0 root root
    rw [hr, h1]
    exact h2

/-- Claim C6, witness: `claim_C6` at the graph root(0) -> a(1) -> b(2) with
virtual-root key `/a` and request path `/b`: the result has
`virtual_root_path = ("a",)` and `traversed = ("a", "b")`. -/
theorem claim_C6_witness :
    (TravResult.mk 2 [] [] [chrs "a", chrs "b"] 1 [chrs "a"] 0).virtual_root_path.length ≤
      (TravResult.mk 2 [] [] [chrs "a", chrs "b"] 1 [chrs "a"] 0).traversed.length :=
  claim_C6 gab 0 ⟨none, some (chrs "/b"), some (chrs "/a")⟩ (chrs "/a") (chrs "/b")
    [] [chrs "a"] [chrs "a", chrs "b"] ⟨2, [], [], [chrs "a", chrs "b"], 1, [chrs "a"], 0⟩
    (by decide) (by decide) (by decide) (by decide) (by decide) (by decide)

/- ### Helper lemmas: the `..` underflow and decode-failure behavior -/

theorem validSeg_cases (s : ByteStr) (h : validSeg s = true) :
    s = [] ∨ s = chrs "." ∨ s = chrs ".." ∨ (utf8Decode s).isSome := by
  unfold validSeg at h
  simp only [Bool.or_eq_true, beq_iff_eq] at h
  tauto

theorem isDots_true (s : ByteStr) (h : s = chrs "..") : isDots s = true := by
  unfold isDots
  simp [h]

theorem isDots_false_of_drop (s : ByteStr) (h : s = [] ∨ s = chrs ".") :
    isDots s = false := by
  unfold isDots
  rcases h with h | h <;> rw [h] <;> decide

theorem isDots_false_of_ne (s : ByteStr) (h : s ≠ chrs "..") : isDots s = false := by
  unfold isDots
  simp [h]

theorem isKept_false_of_drop (s : ByteStr) (h : s = [] ∨ s = chrs ".") :
    isKept s = false := by
  unfold isKept
  rcases h with h | h <;> rw [h] <;> decide

theorem isKept_false_of_dots (s : ByteStr) (h : s = chrs "..") : isKept s = false := by
  unfold isKept
  rw [h]
  decide

theorem isKept_true (s : ByteStr) (h1 : ¬(s = [] ∨ s = chrs ".")) (h2 : s ≠ chrs "..") :
    isKept s = true := by
  unfold isKept
  push_neg at h1
  simp [beq_iff_eq, h1.1, h1.2, h2]

theorem not_drop_of_decode_none (s : ByteStr) (h : (utf8Decode s).isNone) :
    ¬(s = [] ∨ s = chrs ".") := by
  intro hc
  rcases hc with hc | hc <;> rw [hc] at h <;> exact absurd h (by decide)

theorem not_dots_of_decode_none (s : ByteStr) (h : (utf8Decode s).isNone) :
    s ≠ chrs ".." := by
  intro hc
  rw [hc] at h
  exact absurd h (by decide)

theorem decode_some_of_valid (s : ByteStr) (hv : validSeg s = true)
    (h1 : ¬(s = [] ∨ s = chrs ".")) (h2 : s ≠ chrs "..") :
    (utf8Decode s).isSome := by
  rcases validSeg_cases s hv with h | h | h | h
  · exact absurd (Or.inl h) h1
  · exact absurd (Or.inr h) h1
  · exact absurd h h2
  · exact h

theorem normSegs_underflow : ∀ (us : List ByteStr) (acc : List UStr) (i : Nat)
    (hi : i < us.length),
    urlUnquote (us.get ⟨i, hi⟩) = chrs ".." →
    (∀ j (hj : j < i), validSeg (urlUnquote (us.get ⟨j, by omega⟩))) →
    (us.take (i + 1)).countP (fun s => isDots (urlUnquote s)) >
      acc.length + (us.take i).countP (fun s => isKept (urlUnquote s)) →
    normSegs us acc = .error .indexError := by
  intro us
  induction us with
  | nil => intro acc i hi; exact absurd hi (by simp)
  | cons seg rest ih =>
    intro acc i hi hdots hval hcount
    cases i with
    | zero =>
      have hd : urlUnquote seg = chrs ".." := hdots
      simp only [List.take_succ_cons, List.take_zero, List.countP_cons, List.countP_nil,
        isDots_true _ hd, if_true] at hcount
      have hacc : acc = [] := List.length_eq_zero.mp (by omega)
      rw [normSegs, if_neg (by
        intro hc
        rw [hd] at hc
        rcases hc with hc | hc <;> exact absurd hc (by decide))]
      rw [if_pos hd, if_pos hacc]
    | succ k =>
      have hk : k < rest.length := by
        simp only [List.length_cons] at hi
        omega
      have hv0 : validSeg (urlUnquote seg) = true := hval 0 (by omega)
      by_cases h1 : urlUnquote seg = [] ∨ urlUnquote seg = chrs "."
      · rw [normSegs, if_pos h1]
        refine ih acc k hk hdots (fun j hj => hval (j + 1) (by omega)) ?_
        simp only [List.take_succ_cons, List.countP_cons,
          isDots_false_of_drop _ h1, isKept_false_of_drop _ h1, Bool.false_eq_true, if_false] at hcount
        omega
      · by_cases h2 : urlUnquote seg = chrs ".."
        · rw [normSegs, if_neg h1, if_pos h2]
          by_cases hacc : acc = []
          · rw [if_pos hacc]
          · rw [if_neg hacc]
            refine ih acc.dropLast k hk hdots (fun j hj => hval (j + 1) (by omega)) ?_
            simp only [List.take_succ_cons, List.countP_cons, isDots_true _ h2,
              isKept_false_of_dots _ h2, if_true, Bool.false_eq_true, if_false] at hcount
            have hlen : acc.dropLast.length = acc.length - 1 := List.length_dropLast acc
            have hpos : 0 < acc.length := List.length_pos.mpr hacc
            omega
        · have hsome := decode_some_of_valid _ hv0 h1 h2
          obtain ⟨u, hu⟩ := Option.isSome_iff_exists.mp hsome
          rw [normSegs, if_neg h1, if_neg h2, hu]
          refine ih (acc ++ [u]) k hk hdots (fun j hj => hval (j + 1) (by omega)) ?_
          simp only [List.take_succ_cons, List.countP_cons, isDots_false_of_ne _ h2,
            isKept_true _ h1 h2, if_true, Bool.false_eq_true, if_false] at hcount
          have hlen : (acc ++ [u]).length = acc.length + 1 := by simp
          omega

theorem normSegs_decode_fail : ∀ (us : List ByteStr) (acc : List UStr) (i : Nat)
    (hi : i < us.length),
    (utf8Decode (urlUnquote (us.get ⟨i, hi⟩))).isNone →
    (∀ j (hj : j < i), validSeg (urlUnquote (us.get ⟨j, by omega⟩))) →
    (∀ j, j ≤ i → (us.take j).countP (fun s => isDots (urlUnquote s)) ≤
      acc.length + (us.take j).countP (fun s => isKept (urlUnquote s))) →
    normSegs us acc = .error .typeError := by
  intro us
  induction us with
  | nil => intro acc i hi; exact absurd hi (by simp)
  | cons seg rest ih =>
    intro acc i hi hnone hval hcnt
    cases i with
    | zero =>
      have hn : (utf8Decode (urlUnquote seg)).isNone = true := hnone
      have h1 := not_drop_of_decode_none _ hn
      have h2 := not_dots_of_decode_none _ hn
      cases hdec : utf8Decode (urlUnquote seg) with
      | some u => rw [hdec] at hn; exact absurd hn (by simp)
      | none => rw [normSegs, if_neg h1, if_neg h2, hdec]
    | succ k =>
      have hk : k < rest.length := by
        simp only [List.length_cons] at hi
        omega
      have hv0 : validSeg (urlUnquote seg) = true := hval 0 (by omega)
      by_cases h1 : urlUnquote seg = [] ∨ urlUnquote seg = chrs "."
      · rw [normSegs, if_pos h1]
        refine ih acc k hk hnone (fun j hj => hval (j + 1) (by omega)) ?_
        intro j hj
        have hc := hcnt (j + 1) (by omega)
        simp only [List.take_succ_cons, List.countP_cons,
          isDots_false_of_drop _ h1, isKept_false_of_drop _ h1, Bool.false_eq_true, if_false] at hc
        omega
      · by_cases h2 : urlUnquote seg = chrs ".."
        · rw [normSegs, if_neg h1, if_pos h2]
          have hne : acc ≠ [] := by
            have hc := hcnt 1 (by omega)
            simp only [List.take_succ_cons, List.take_zero, List.countP_cons,
              List.countP_nil, isDots_true _ h2, isKept_false_of_dots _ h2,
              if_true, Bool.false_eq_true, if_false] at hc
            intro hacc
            rw [hacc] at hc
            simp at hc
          rw [if_neg hne]
          refine ih acc.dropLast k hk hnone (fun j hj => hval (j + 1) (by omega)) ?_
          intro j hj
          have hc := hcnt (j + 1) (by omega)
          simp only [List.take_succ_cons, List.countP_cons, isDots_true _ h2,
            isKept_false_of_dots _ h2, if_true, Bool.false_eq_true, if_false] at hc
          have hlen : acc.dropLast.length = acc.length - 1 := List.length_dropLast acc
          have hpos : 0 < acc.length := List.length_pos.mpr hne
          omega
        · have hsome := decode_some_of_valid _ hv0 h1 h2
          obtain ⟨u, hu⟩ := Option.isSome_iff_exists.mp hsome
          rw [normSegs, if_neg h1, if_neg h2, hu]
          refine ih (acc ++ [u]) k hk hnone (fun j hj => hval (j + 1) (by omega)) ?_
          intro j hj
          have hc := hcnt (j + 1) (by omega)
          simp only [List.take_succ_cons, List.countP_cons, isDots_false_of_ne _ h2,
            isKept_true _ h1 h2, if_true, Bool.false_eq_true, if_false] at hc
          have hlen : (acc ++ [u]).length = acc.length + 1 := by simp
          omega

theorem normSegs_all_valid : ∀ (us : List ByteStr) (acc : List UStr),
    (∀ s ∈ us, validSeg (urlUnquote s)) → normSegs us acc ≠ .error .typeError := by
  intro us
  induction us with
  | nil =>
    intro acc _
    rw [normSegs]
    intro h
    exact Except.noConfusion h
  | cons seg rest ih =>
    intro acc hall
    have hv0 : validSeg (urlUnquote seg) = true := hall seg (by simp)
    by_cases h1 : urlUnquote seg = [] ∨ urlUnquote seg = chrs "."
    · rw [normSegs, if_pos h1]
      exact ih acc (fun s hs => hall s (by simp [hs]))
    · by_cases h2 : urlUnquote seg = chrs ".."
      · rw [normSegs, if_neg h1, if_pos h2]
        by_cases hacc : acc = []
        · rw [if_pos hacc]
          intro h
          exact PyErr.noConfusion (Except.error.inj h)
        · rw [if_neg hacc]
          exact ih acc.dropLast (fun s hs => hall s (by simp [hs]))
      · have hsome := decode_some_of_valid _ hv0 h1 h2
        obtain ⟨u, hu⟩ := Option.isSome_iff_exists.mp hsome
        rw [normSegs, if_neg h1, if_neg h2, hu]
        exact ih (acc ++ [u]) (fun s hs => hall s (by simp [hs]))

/-- Claim C9: unguarded `..` underflow.  For every path whose raw segments
contain, at some position `i` reached by processing (all earlier segments
are processable: dropped, `..`, or UTF-8-decodable), a `..` whose running
count then exceeds the count of previously accumulated (kept) segments,
`traversal_path` raises an `IndexError`-class failure (`del clean[-1]` on an
empty accumulator): it neither clamps silently nor returns a result.
Non-looping holds by construction: the embedded `traversal_path` is a total
structurally-recursive function. -/
theorem claim_C9 :
    ∀ (p : ByteStr) (i : Nat) (hi : i < (rawSegs p).length),
      urlUnquote ((rawSegs p).get ⟨i, hi⟩) = chrs ".." →
      (∀ j (hj : j < i), validSeg (urlUnquote ((rawSegs p).get ⟨j, by omega⟩))) →
      ((rawSegs p).take (i + 1)).countP (fun s => isDots (urlUnquote s)) >
        ((rawSegs p).take i).countP (fun s => isKept (urlUnquote s)) →
      traversal_path p = .error .indexError := by
  intro p i hi hdots hval hcount
  unfold traversal_path
  exact normSegs_underflow (rawSegs p) [] i hi hdots hval (by simpa using hcount)

/-- Claim C9, witness: `claim_C9` applied to the path `/../..` (the claim's
example), whose first raw segment is already a `..` with nothing
accumulated; the result is the `IndexError` failure. -/
theorem claim_C9_witness :
    traversal_path (chrs "/../..") = .error .indexError :=
  claim_C9 (chrs "/../..") 0 (by decide) (by decide)
    (fun j hj => absurd hj (by omega)) (by decide)

/-- Claim C10, counterexample: the path `/../%FF` contains the segment
`%FF`, whose URL-unquoted byte `0xFF` is not valid UTF-8, yet `decode_path`
raises the `IndexError` from the preceding `..` underflow, not a
`TypeError`-class failure: the claim's universal statement fails when an
earlier `..` underflow preempts the decode error. -/
theorem claim_C10_counterexample :
    chrs "%FF" ∈ rawSegs (chrs "/../%FF") ∧
    (utf8Decode (urlUnquote (chrs "%FF"))).isNone ∧
    traversal_path (chrs "/../%FF") = .error .indexError ∧
    traversal_path (chrs "/../%FF") ≠ .error .typeError := by
  refine ⟨by decide, by decide, by decide, by decide⟩

/-- Claim C10, amended.  Conjunct 1: for every path with a segment whose
URL-unquoted bytes fail UTF-8 decoding, provided processing reaches that
segment (all earlier segments are processable and no earlier `..` underflows
the accumulator), `decode_path` raises a `TypeError`-class failure rather
than dropping the segment or returning a partial result.  Conjunct 2:
segments with valid UTF-8 bytes are never rejected by this check -- when
every segment is processable, the result is never a `TypeError`. -/
theorem claim_C10 :
    (∀ (p : ByteStr) (i : Nat) (hi : i < (rawSegs p).length),
      (utf8Decode (urlUnquote ((rawSegs p).get ⟨i, hi⟩))).isNone →
      (∀ j (hj : j < i), validSeg (urlUnquote ((rawSegs p).get ⟨j, by omega⟩))) →
      (∀ j, j ≤ i → ((rawSegs p).take j).countP (fun s => isDots (urlUnquote s)) ≤
        ((rawSegs p).take j).countP (fun s => isKept (urlUnquote s))) →
      traversal_path p = .error .typeError) ∧
    (∀ p : ByteStr, (∀ s ∈ rawSegs p, validSeg (urlUnquote s)) →
      traversal_path p ≠ .error .typeError) := by
  constructor
  · intro p i hi hnone hval hcnt
    unfold traversal_path
    refine normSegs_decode_fail (rawSegs p) [] i hi hnone hval ?_
    intro j hj
    simpa using hcnt j hj
  · intro p hall
    unfold traversal_path
    exact normSegs_all_valid (rawSegs p) [] hall

/-- Claim C10, witness: `claim_C10` applied to the path `/%FF`: its only
segment unquotes to the byte `0xFF`, which is not valid UTF-8, and
`decode_path` raises the `TypeError`-class failure. -/
theorem claim_C10_witness :
    traversal_path (chrs "/%FF") = .error .typeError :=
  claim_C10.1 (chrs "/%FF") 0 (by decide) (by decide)
    (fun j hj => absurd hj (by omega))
    (fun j hj => by
      have h0 : j = 0 := Nat.le_zero.mp hj
      subst h0
      decide)

/-- Claim C8: decode/encode round-trip.  For every normalized segment
sequence `S` (no empty, `.` or `..` entries; code points in the Python 2
unicode range), decoding the joined form reproduces `S`:
`traversal_path (_join_path_tuple S) = S`.  Equivalently, an
already-normalized path string round-trips exactly through
decode -> normalize -> encode. -/
theorem claim_C8 :
    ∀ S : List UStr,
      (∀ s ∈ S, s ≠ [] ∧ s ≠ chrs "." ∧ s ≠ chrs ".." ∧ ∀ c ∈ s, c < 0x110000) →
      traversal_path (_join_path_tuple S) = .ok S := by
  intro S h
  exact traversal_path_join S h

/-- Claim C8, witness: `claim_C8` at the sequence `("foo", "my archives")`,
whose join percent-encodes the space and whose decode restores it. -/
theorem claim_C8_witness :
    traversal_path (_join_path_tuple [chrs "foo", chrs "my archives"]) =
      .ok [chrs "foo", chrs "my archives"] :=
  claim_C8 [chrs "foo", chrs "my archives"] (by decide)

/- ### Helper lemma: resolving a joined absolute path from the root -/

theorem find_model_join_abs (g : Graph) (fuel r n : Nat) (names : List UStr)
    (hfr : find_root? g fuel r = some r)
    (hnorm : ∀ s ∈ names, s ≠ [] ∧ s ≠ chrs "." ∧ s ≠ chrs ".." ∧ ∀ c ∈ s, c < 0x110000)
    (hmk : ∀ s ∈ names, s.take 2 ≠ chrs "@@")
    (hwl : walkLookup g r names = some n) :
    find_model? g fuel r (PathArg.str (_join_path_tuple ([] :: names))) = some (.ok n) ∧
    find_model? g fuel r (PathArg.seq ([] :: names)) = some (.ok n) := by
  have hPeq : pathArgStr (PathArg.seq ([] :: names)) = _join_path_tuple ([] :: names) := by
    show (if ([] :: names : List UStr) = [] then ([] : ByteStr)
      else _join_path_tuple ([] :: names)) = _join_path_tuple ([] :: names)
    rw [if_neg (by simp)]
  cases names with
  | nil =>
    have hn : n = r := by
      rw [walkLookup] at hwl
      exact (Option.some.inj hwl).symm
    have hj : _join_path_tuple [([] : UStr)] = chrs "/" := by decide
    have hcallr : mgtCall g r ⟨none, some (_join_path_tuple [([] : UStr)]), none⟩ =
        .ok ⟨r, [], [], [], r, [], r⟩ := by
      rw [hj]
      exact mgtCall_pathinfo_slash g r (chrs "/") (Or.inr rfl)
    constructor
    · have ht := traverse?_abs g fuel r (PathArg.str (_join_path_tuple [([] : UStr)])) r
        (by rw [show pathArgStr (PathArg.str (_join_path_tuple [([] : UStr)])) =
              _join_path_tuple [([] : UStr)] from rfl, hj]; decide) hfr
      rw [show pathArgStr (PathArg.str (_join_path_tuple [([] : UStr)])) =
        _join_path_tuple [([] : UStr)] from rfl] at ht
      rw [hcallr] at ht
      rw [find_model?_of_traverse g fuel r _ _ ht]
      rw [hn]
      rfl
    · have ht := traverse?_abs g fuel r (PathArg.seq [([] : UStr)]) r
        (by rw [hPeq, hj]; decide) hfr
      rw [hPeq, hcallr] at ht
      rw [find_model?_of_traverse g fuel r _ _ ht]
      rw [hn]
      rfl
  | cons x rest =>
    have hqx : quote_path_segment x ≠ [] :=
      url_quote_ne_nil _ (utf8Encode_ne_nil x (hnorm x (by simp)).1)
    have hshape := _join_path_tuple_abs_cons x rest
    have hJ : joinSlash (quote_path_segment x :: rest.map quote_path_segment) ≠ [] :=
      joinSlash_ne_nil _ _ hqx
    have hp_ne : _join_path_tuple ([] :: x :: rest) ≠ [] := _join_path_tuple_ne_nil _
    have hp_ne2 : _join_path_tuple ([] :: x :: rest) ≠ chrs "/" := by
      rw [hshape]
      intro hc
      injection hc with h1 h2
      exact hJ h2
    have hhead : (_join_path_tuple ([] :: x :: rest)).head? = some 47 := by
      rw [hshape]
      rfl
    have htp : traversal_path (_join_path_tuple ([] :: x :: rest)) = .ok (x :: rest) :=
      traversal_path_join_abs (x :: rest) hnorm
    have hwalk := mgtWalk_full g r [] [] (x :: rest) (x :: rest) 0 r r n hwl hmk
    have hcall : mgtCall g r ⟨none, some (_join_path_tuple ([] :: x :: rest)), none⟩ =
        .ok ⟨n, [], [], x :: rest, r, [], r⟩ := by
      rw [mgtCall_pathinfo g r _ (x :: rest) hp_ne hp_ne2 htp, hwalk]
    constructor
    · have ht := traverse?_abs g fuel r (PathArg.str (_join_path_tuple ([] :: x :: rest))) r
        hhead hfr
      rw [show pathArgStr (PathArg.str (_join_path_tuple ([] :: x :: rest))) =
        _join_path_tuple ([] :: x :: rest) from rfl] at ht
      rw [hcall] at ht
      rw [find_model?_of_traverse g fuel r _ _ ht]
      rfl
    · have ht := traverse?_abs g fuel r (PathArg.seq ([] :: x :: rest)) r
        (by rw [hPeq]; exact hhead) hfr
      rw [hPeq, hcall] at ht
      rw [find_model?_of_traverse g fuel r _ _ ht]
      rfl

/-- Claim C1, counterexample: the round-trip law fails on a location-aware
acyclic graph whose only child is named `.`: on root(0) -> dot(1),
`model_path(1)` is `"/."`, but `find_model(root, "/.")` resolves to the
root 0 (the `.` segment is dropped by path normalization), not to node 1. -/
theorem claim_C1_counterexample :
    lineage? gdot 3 1 = some [1, 0] ∧
    childLookup gdot 0 (chrs ".") = some 1 ∧
    model_path? gdot 3 1 [] = some (chrs "/.") ∧
    find_model? gdot 3 0 (PathArg.str (chrs "/.")) = some (.ok 0) ∧
    (0 : Nat) ≠ 1 := by
  refine ⟨by decide, by decide, by decide, by decide, by decide⟩

/-- Claim C1, amended round-trip law: for every location-aware graph, every
node `n` whose lineage terminates (acyclicity) at a root `r` whose name is
null or empty, and whose chain is consistent (each node is returned by its
parent's child lookup under its own name) with normal names (nonempty, not
`.` or `..`, not starting with `@@`, code points in the Python 2 unicode
range), resolving the path produced by the inverse builder returns `n`:
`find_model(r, model_path(n)) = n`, and likewise for the tuple form
`model_path_tuple(n)`. -/
theorem claim_C1 (g : Graph) (fuel n : Nat) (chain : List Nat) (r : Nat)
    (hlin : lineage? g fuel n = some chain)
    (hlast : chain.getLast? = some r)
    (hroot : g.name r = none ∨ g.name r = some [])
    (hok : ChainOK g chain) :
    ∃ p t, model_path? g fuel n [] = some p ∧ model_path_tuple? g fuel n [] = some t ∧
      find_model? g fuel r (PathArg.str p) = some (.ok n) ∧
      find_model? g fuel r (PathArg.seq t) = some (.ok n) := by
  have htuple := model_path_tuple_shape g fuel n chain r hlin hlast hroot
  have hnames := chainOK_names g chain hok
  have hwl := lineage_walkLookup g fuel n chain r hlin hok hlast
  have hfr : find_root? g fuel r = some r :=
    find_root?_of_parent_none g fuel r
      (lineage?_last_parent g fuel n chain r hlin hlast)
      (lineage?_pos g fuel n chain hlin)
  have hnorm : ∀ s ∈ revNames g chain,
      s ≠ [] ∧ s ≠ chrs "." ∧ s ≠ chrs ".." ∧ ∀ c ∈ s, c < 0x110000 := by
    intro s hs
    obtain ⟨a, b, c, _, e⟩ := hnames s hs
    exact ⟨a, b, c, e⟩
  have hmk : ∀ s ∈ revNames g chain, s.take 2 ≠ chrs "@@" := by
    intro s hs
    exact (hnames s hs).2.2.2.1
  obtain ⟨hstr, hseq⟩ := find_model_join_abs g fuel r n (revNames g chain) hfr hnorm hmk hwl
  refine ⟨_join_path_tuple ([] :: revNames g chain), [] :: revNames g chain, ?_, htuple,
    hstr, hseq⟩
  unfold model_path?
  rw [htuple]
  rfl

/-- Claim C1, witness: `claim_C1` at the graph root(0) -> a(1) -> b(2) with
`n = 2` (node `b`): its model path `/a/b` (and the tuple `("", "a", "b")`)
resolves back to node 2. -/
theorem claim_C1_witness :
    ∃ p t, model_path? gab 3 2 [] = some p ∧ model_path_tuple? gab 3 2 [] = some t ∧
      find_model? gab 3 0 (PathArg.str p) = some (.ok 2) ∧
      find_model? gab 3 0 (PathArg.seq t) = some (.ok 2) :=
  claim_C1 gab 3 2 [2, 1, 0] 0 (by decide) (by decide) (Or.inl rfl)
    ⟨⟨chrs "b", rfl, by decide, by decide⟩, ⟨chrs "a", rfl, by decide, by decide⟩, trivial⟩
